import Mathlib

set_option linter.unusedSectionVars false

/-!
Verification of the result-reconciliation pipeline of `compare.py`
(e10s-compare): job classification, cohort grouping, status-map
construction with duplicate-key disambiguation, status-map diffing with
skip-suppression, report aggregation, and the JSON/text/HTML renderers.

Python dictionaries are modelled as association lists
(`List (κ × δ)`); `aget` is `dict.get`, `dinsert` is `d[k] = v`
(update-or-append), and the no-duplicate-keys invariant of a Python
dict is carried as the `NodupKeys` hypothesis where needed.  Network
and log-parsing collaborators are passed in as explicit oracle
functions, and uncaught Python exceptions are modelled as
`Except.error`.
-/

namespace E10s

/-- `(test-id, subtest-id-or-none)`, the key of a status map
(`compare.py`, `ResultHandler`). -/
abbrev TestKey := String × Option String

/-- One CI job record; only the fields the pipeline reads are kept. -/
structure Job where
  id : Nat
  job_type_name : String
  platform : String
  platform_option : Option String
  ref_data_name : String
deriving DecidableEq, Repr

/-- Dictionary lookup (`d.get(k)` / `k in d`) on an association list. -/
def aget {κ δ : Type} [DecidableEq κ] : List (κ × δ) → κ → Option δ
  | [], _ => none
  | (k', v) :: rest, k => if k' = k then some v else aget rest k

/-- `k in d` for the association-list model of a dict. -/
def hasKey {κ δ : Type} [DecidableEq κ] (m : List (κ × δ)) (k : κ) : Bool :=
  (aget m k).isSome

/-- Dictionary assignment `d[k] = v`: replace the binding if the key is
present, append it otherwise. -/
def dinsert {κ δ : Type} [DecidableEq κ] (k : κ) (v : δ) : List (κ × δ) → List (κ × δ)
  | [] => [(k, v)]
  | (k', v') :: rest => if k' = k then (k, v) :: rest else (k', v') :: dinsert k v rest

/-- The keys of an association list. -/
def keysOf {κ δ : Type} (m : List (κ × δ)) : List κ := m.map Prod.fst

/-- The invariant of a Python dict: no key is bound twice. -/
def NodupKeys {κ δ : Type} (m : List (κ × δ)) : Prop := (keysOf m).Nodup

instance {κ δ : Type} [DecidableEq κ] (m : List (κ × δ)) : Decidable (NodupKeys m) :=
  inferInstanceAs (Decidable (keysOf m).Nodup)

/-- A status map: `TestKey → status string` (`load_results`'s result). -/
abbrev StatusMap := List (TestKey × String)

/-- A difference map: `TestKey → [non-e10s-status, e10s-status]`
(`compare_results`'s result), the two-element Python list modelled as a
pair of options. -/
abbrev DiffMap := List (TestKey × (Option String × Option String))

section AssocLemmas

variable {κ δ : Type} [DecidableEq κ]

theorem aget_dinsert_self (m : List (κ × δ)) (k : κ) (v : δ) :
    aget (dinsert k v m) k = some v := by
  induction m with
  | nil => simp [dinsert, aget]
  | cons p rest ih =>
    obtain ⟨k', v'⟩ := p
    by_cases h : k' = k
    · simp [dinsert, h, aget]
    · simp [dinsert, h, aget, ih]

theorem aget_dinsert_ne (m : List (κ × δ)) (k k' : κ) (v : δ) (h : k ≠ k') :
    aget (dinsert k v m) k' = aget m k' := by
  induction m with
  | nil => simp [dinsert, aget, h]
  | cons p rest ih =>
    obtain ⟨k₀, v₀⟩ := p
    by_cases h₀ : k₀ = k
    · subst h₀
      simp [dinsert, aget, h]
    · simp only [dinsert, if_neg h₀]
      by_cases h₁ : k₀ = k'
      · simp [aget, h₁]
      · simp [aget, h₁, ih]

theorem aget_eq_none_iff (m : List (κ × δ)) (k : κ) :
    aget m k = none ↔ k ∉ keysOf m := by
  induction m with
  | nil => simp [aget, keysOf]
  | cons p rest ih =>
    obtain ⟨k', v'⟩ := p
    by_cases h : k' = k
    · subst h
      simp [aget, keysOf]
    · simp [aget, keysOf, h, ih, Ne.symm h]

theorem aget_append (m₁ m₂ : List (κ × δ)) (k : κ) :
    aget (m₁ ++ m₂) k = match aget m₁ k with
      | some v => some v
      | none => aget m₂ k := by
  induction m₁ with
  | nil => simp [aget]
  | cons p rest ih =>
    obtain ⟨k', v'⟩ := p
    by_cases h : k' = k
    · simp [aget, h]
    · simp [aget, h, ih]

theorem dinsert_of_aget_none (m : List (κ × δ)) (k : κ) (v : δ)
    (h : aget m k = none) : dinsert k v m = m ++ [(k, v)] := by
  induction m with
  | nil => simp [dinsert]
  | cons p rest ih =>
    obtain ⟨k', v'⟩ := p
    by_cases h₀ : k' = k
    · subst h₀
      simp [aget] at h
    · simp only [aget, if_neg h₀] at h
      simp [dinsert, h₀, ih h]

theorem aget_eq_some_of_mem (m : List (κ × δ)) (k : κ) (v : δ)
    (hn : NodupKeys m) (hm : (k, v) ∈ m) : aget m k = some v := by
  induction m with
  | nil => simp at hm
  | cons p rest ih =>
    obtain ⟨k', v'⟩ := p
    simp only [NodupKeys, keysOf, List.map_cons, List.nodup_cons] at hn
    rcases List.mem_cons.mp hm with h | h
    · obtain ⟨h1, h2⟩ := Prod.mk.injEq .. ▸ h
      cases h
      simp [aget]
    · have hk : k' ≠ k := by
        intro he
        subst he
        exact hn.1 (List.mem_map.mpr ⟨(k', v), h, rfl⟩)
      simp [aget, hk]
      exact ih hn.2 h

theorem mem_of_aget_eq_some (m : List (κ × δ)) (k : κ) (v : δ)
    (h : aget m k = some v) : (k, v) ∈ m := by
  induction m with
  | nil => simp [aget] at h
  | cons p rest ih =>
    obtain ⟨k', v'⟩ := p
    by_cases h₀ : k' = k
    · subst h₀
      simp only [aget, if_pos rfl] at h
      cases h
      exact List.mem_cons_self _ _
    · simp only [aget, if_neg h₀] at h
      exact List.mem_cons_of_mem _ (ih h)

end AssocLemmas

/-! ## The Differ (`compare_results`) -/

/-- Python's `str.lower()` on the ASCII status strings, modelled
character-wise (structurally, so that it evaluates). -/
def pylower (s : String) : String := String.mk (s.data.map Char.toLower)

/-- The guard `key[1] is None or other.get((key[0], None), "").lower() != "skip"`:
a key missing from `other`'s side is still reported unless it is a
subtest whose parent whole-test entry in `other` is SKIP
(case-insensitively). -/
def allowMissing (other : StatusMap) (k : TestKey) : Bool :=
  k.2.isNone || pylower ((aget other (k.1, none)).getD "") ≠ "skip"

/-- One step of the first loop of `compare_results`, folding over the
e10s map: `key`s absent from `non_e10s` become `[None, value]`
(suppression permitting), keys present with a different status become
`[non_e10s[key], value]`. -/
def diffStep1 (non_e10s : StatusMap) (diffs : DiffMap) (kv : TestKey × String) : DiffMap :=
  match aget non_e10s kv.1 with
  | none =>
      if allowMissing non_e10s kv.1 then dinsert kv.1 (none, some kv.2) diffs else diffs
  | some v0 =>
      if v0 ≠ kv.2 then dinsert kv.1 (some v0, some kv.2) diffs else diffs

/-- One step of the second loop of `compare_results`, folding over the
non-e10s map: keys absent from `e10s` become `[value, None]`
(suppression permitting). -/
def diffStep2 (e10s : StatusMap) (diffs : DiffMap) (kv : TestKey × String) : DiffMap :=
  match aget e10s kv.1 with
  | none =>
      if allowMissing e10s kv.1 then dinsert kv.1 (some kv.2, none) diffs else diffs
  | some _ => diffs

/-- `compare_results(non_e10s, e10s)` from `compare.py`: the two loops
over `e10s.iteritems()` and `non_e10s.iteritems()` building the
differences dict. -/
def compare_results (non_e10s e10s : StatusMap) : DiffMap :=
  non_e10s.foldl (diffStep2 e10s) (e10s.foldl (diffStep1 non_e10s) [])

/-! ### Generic shape of the loops: decide on an entry, then `d[k] = v` -/

/-- A loop body of the form `if cond: diffs[key] = value`, with the
decision abstracted as `f`. -/
def condInsert {κ α β : Type} [DecidableEq κ] (f : κ × α → Option β)
    (m : List (κ × β)) (kv : κ × α) : List (κ × β) :=
  match f kv with
  | some v => dinsert kv.1 v m
  | none => m

section CondInsert

variable {κ α β : Type} [DecidableEq κ]

theorem aget_condInsert (f : κ × α → Option β) (m : List (κ × β)) (kv : κ × α) (k : κ) :
    aget (condInsert f m kv) k =
      if kv.1 = k then (f kv).orElse (fun _ => aget m k) else aget m k := by
  unfold condInsert
  rcases hf : f kv with _ | v
  · simp [Option.orElse]
  · by_cases hk : kv.1 = k
    · subst hk
      simp [aget_dinsert_self, Option.orElse]
    · simp [hk, aget_dinsert_ne _ _ _ _ hk]

theorem aget_foldl_condInsert (f : κ × α → Option β) (l : List (κ × α))
    (hl : NodupKeys l) : ∀ (m : List (κ × β)) (k : κ),
    aget (l.foldl (condInsert f) m) k =
      ((aget l k).bind (fun a => f (k, a))).orElse (fun _ => aget m k) := by
  induction l with
  | nil => intro m k; simp [aget, Option.orElse]
  | cons kv rest ih =>
    intro m k
    obtain ⟨k', a'⟩ := kv
    simp only [NodupKeys, keysOf, List.map_cons, List.nodup_cons] at hl
    rw [List.foldl_cons, ih hl.2]
    by_cases hk : k' = k
    · subst hk
      have hrest : aget rest k' = none := by
        rw [aget_eq_none_iff]
        exact hl.1
      rw [hrest]
      have hhead : aget ((k', a') :: rest) k' = some a' := by simp [aget]
      rw [hhead, aget_condInsert, if_pos rfl]
      simp [Option.orElse, Option.bind]
    · have hhead : aget ((k', a') :: rest) k = aget rest k := by simp [aget, hk]
      rw [hhead, aget_condInsert, if_neg hk]

theorem foldl_condInsert_eq_append (f : κ × α → Option β) (l : List (κ × α))
    (hl : NodupKeys l) : ∀ (m : List (κ × β)), (∀ kv ∈ l, aget m kv.1 = none) →
    l.foldl (condInsert f) m =
      m ++ l.filterMap (fun kv => (f kv).map (fun v => (kv.1, v))) := by
  induction l with
  | nil => intro m _; simp
  | cons kv rest ih =>
    intro m hfresh
    obtain ⟨k', a'⟩ := kv
    simp only [NodupKeys, keysOf, List.map_cons, List.nodup_cons] at hl
    rw [List.foldl_cons]
    rcases hf : f (k', a') with _ | v
    · have hstep : condInsert f m (k', a') = m := by simp [condInsert, hf]
      rw [hstep, ih hl.2 m (fun kv hkv => hfresh kv (List.mem_cons_of_mem _ hkv))]
      simp [hf]
    · have hstep : condInsert f m (k', a') = m ++ [(k', v)] := by
        simp only [condInsert, hf]
        exact dinsert_of_aget_none m k' v (hfresh (k', a') (List.mem_cons_self _ _))
      rw [hstep, ih hl.2]
      · simp [hf]
      · intro kv hkv
        rw [aget_append]
        rw [hfresh kv (List.mem_cons_of_mem _ hkv)]
        have hne : k' ≠ kv.1 := by
          intro he
          exact hl.1 (he ▸ List.mem_map.mpr ⟨kv, hkv, rfl⟩)
        simp [aget, hne]

theorem filterMap_eq_map_of_all_some (l : List (κ × α)) (f : κ × α → Option β)
    (e : κ × α → β) (h : ∀ kv ∈ l, f kv = some (e kv)) :
    l.filterMap (fun kv => (f kv).map (fun v => (kv.1, v))) =
      l.map (fun kv => (kv.1, e kv)) := by
  induction l with
  | nil => simp
  | cons kv rest ih =>
    rw [List.filterMap_cons, h kv (List.mem_cons_self _ _)]
    simp only [Option.map_some', List.map_cons]
    rw [ih (fun kv hkv => h kv (List.mem_cons_of_mem _ hkv))]

theorem eq_nil_of_aget_eq_none (m : List (κ × δ)) (h : ∀ k, aget m k = none) :
    m = [] := by
  cases m with
  | nil => rfl
  | cons kv rest =>
    have := h kv.1
    simp [aget] at this

end CondInsert

/-! ### Characterization of the Differ -/

/-- The decision taken by the first loop of `compare_results` for one
e10s entry. -/
def diffEntry1 (non_e10s : StatusMap) (kv : TestKey × String) :
    Option (Option String × Option String) :=
  match aget non_e10s kv.1 with
  | none => if allowMissing non_e10s kv.1 then some (none, some kv.2) else none
  | some v0 => if v0 ≠ kv.2 then some (some v0, some kv.2) else none

/-- The decision taken by the second loop of `compare_results` for one
non-e10s entry. -/
def diffEntry2 (e10s : StatusMap) (kv : TestKey × String) :
    Option (Option String × Option String) :=
  match aget e10s kv.1 with
  | none => if allowMissing e10s kv.1 then some (some kv.2, none) else none
  | some _ => none

theorem diffStep1_eq_condInsert (non_e10s : StatusMap) :
    diffStep1 non_e10s = condInsert (diffEntry1 non_e10s) := by
  funext diffs kv
  unfold diffStep1 condInsert diffEntry1
  rcases aget non_e10s kv.1 with _ | v0
  · by_cases h : allowMissing non_e10s kv.1 <;> simp [h]
  · by_cases h : v0 ≠ kv.2 <;> simp [h]

theorem diffStep2_eq_condInsert (e10s : StatusMap) :
    diffStep2 e10s = condInsert (diffEntry2 e10s) := by
  funext diffs kv
  unfold diffStep2 condInsert diffEntry2
  rcases aget e10s kv.1 with _ | v0
  · by_cases h : allowMissing e10s kv.1 <;> simp [h]
  · simp

/-- Full pointwise characterization of the difference map computed by
`compare_results`. -/
theorem aget_compare_results (A B : StatusMap) (hA : NodupKeys A) (hB : NodupKeys B)
    (k : TestKey) :
    aget (compare_results A B) k =
      match aget A k, aget B k with
      | some va, some vb => if va ≠ vb then some (some va, some vb) else none
      | none, some vb => if allowMissing A k then some (none, some vb) else none
      | some va, none => if allowMissing B k then some (some va, none) else none
      | none, none => none := by
  unfold compare_results
  rw [diffStep1_eq_condInsert, diffStep2_eq_condInsert,
    aget_foldl_condInsert _ _ hA, aget_foldl_condInsert _ _ hB]
  rcases hA' : aget A k with _ | va <;> rcases hB' : aget B k with _ | vb <;>
    simp only [diffEntry1, diffEntry2, hA', hB', aget, Option.bind, Option.orElse]
  · by_cases h : allowMissing A k <;> simp [h]
  · by_cases h : allowMissing B k <;> simp [h]
  · by_cases h : va ≠ vb <;> simp [h]

/-- Under disjoint key sets with no skip-suppression, the difference map
is exactly the two maps marked one-sided, e10s side first. -/
theorem compare_results_disjoint (A B : StatusMap) (hA : NodupKeys A) (hB : NodupKeys B)
    (hdisjB : ∀ kv ∈ B, aget A kv.1 = none)
    (hdisjA : ∀ kv ∈ A, aget B kv.1 = none)
    (hallowB : ∀ kv ∈ B, allowMissing A kv.1 = true)
    (hallowA : ∀ kv ∈ A, allowMissing B kv.1 = true) :
    compare_results A B =
      B.map (fun kv => (kv.1, ((none : Option String), some kv.2))) ++
      A.map (fun kv => (kv.1, (some kv.2, (none : Option String)))) := by
  unfold compare_results
  rw [diffStep1_eq_condInsert, diffStep2_eq_condInsert]
  have h1 : B.foldl (condInsert (diffEntry1 A)) [] =
      B.map (fun kv => (kv.1, ((none : Option String), some kv.2))) := by
    rw [foldl_condInsert_eq_append _ _ hB [] (fun kv _ => by simp [aget])]
    rw [List.nil_append]
    exact filterMap_eq_map_of_all_some _ _ _ (fun kv hkv => by
      simp [diffEntry1, hdisjB kv hkv, hallowB kv hkv])
  rw [h1]
  rw [foldl_condInsert_eq_append _ _ hA]
  · congr 1
    exact filterMap_eq_map_of_all_some _ _ _ (fun kv hkv => by
      simp [diffEntry2, hdisjA kv hkv, hallowA kv hkv])
  · intro kv hkv
    rw [aget_eq_none_iff]
    intro hmem
    have hmem' : kv.1 ∈ keysOf B := by
      simpa [keysOf, List.map_map] using hmem
    exact (aget_eq_none_iff B kv.1).mp (hdisjA kv hkv) hmem'

/-- Skip-suppression in terms of the claim's wording: an absent key is
suppressed exactly when its subtest component is non-null and the other
map holds the whole-test key with a status that lower-cases to
`"skip"`. -/
theorem allowMissing_eq_false_iff (other : StatusMap) (k : TestKey) :
    allowMissing other k = false ↔
      k.2 ≠ none ∧ ∃ s, aget other (k.1, none) = some s ∧ pylower s = "skip" := by
  unfold allowMissing
  rcases k with ⟨t, sub⟩
  rcases sub with _ | s
  · simp
  · rcases h : aget other (t, none) with _ | st
    · simp [h]
      decide
    · simp [h]

/-- Claim C1: for every pair of status maps A (non-isolated) and B
(isolated) and every key, the Differ's output maps a key present in
both with differing statuses to `[A[k], B[k]]`, drops keys present in
both with equal status, maps a key only in B to `[null, B[k]]` unless
skip-suppressed (subtest key whose whole-test entry in A has status
SKIP case-insensitively), symmetrically for keys only in A, and holds
no other keys; for disjoint key sets with no skip-suppressed keys the
output has exactly `|A| + |B|` entries, each with one null side. -/
theorem c1_differ_output (A B : StatusMap) (hA : NodupKeys A) (hB : NodupKeys B) :
    (∀ k : TestKey,
      aget (compare_results A B) k =
        match aget A k, aget B k with
        | some va, some vb => if va ≠ vb then some (some va, some vb) else none
        | none, some vb => if allowMissing A k then some (none, some vb) else none
        | some va, none => if allowMissing B k then some (some va, none) else none
        | none, none => none) ∧
    (∀ k : TestKey, allowMissing A k = false ↔
      k.2 ≠ none ∧ ∃ s, aget A (k.1, none) = some s ∧ pylower s = "skip") ∧
    ((∀ kv ∈ B, aget A kv.1 = none) → (∀ kv ∈ A, aget B kv.1 = none) →
     (∀ kv ∈ B, allowMissing A kv.1 = true) → (∀ kv ∈ A, allowMissing B kv.1 = true) →
     (compare_results A B).length = A.length + B.length ∧
      ∀ e ∈ compare_results A B,
        (e.2.1 = none ∧ e.2.2 ≠ none) ∨ (e.2.1 ≠ none ∧ e.2.2 = none)) := by
  refine ⟨fun k => aget_compare_results A B hA hB k,
    fun k => allowMissing_eq_false_iff A k, ?_⟩
  intro h1 h2 h3 h4
  rw [compare_results_disjoint A B hA hB h1 h2 h3 h4]
  constructor
  · simp [Nat.add_comm]
  · intro e he
    rcases List.mem_append.mp he with h | h
    · rcases List.mem_map.mp h with ⟨kv, _, rfl⟩
      left
      simp
    · rcases List.mem_map.mp h with ⟨kv, _, rfl⟩
      right
      simp

/-- Witness for C1 at concrete one-entry maps with disjoint keys. -/
theorem c1_differ_output_witness :
    aget (compare_results [(("a.html", none), "PASS")] [(("b.html", none), "FAIL")])
        ("b.html", none) = some (none, some "FAIL") ∧
    (compare_results [(("a.html", none), "PASS")] [(("b.html", none), "FAIL")]).length
      = 1 + 1 := by
  have h := c1_differ_output [(("a.html", none), "PASS")] [(("b.html", none), "FAIL")]
    (by decide) (by decide)
  refine ⟨(h.1 ("b.html", none)).trans (by decide), ?_⟩
  exact (h.2.2 (by decide) (by decide) (by decide) (by decide)).1

/-- Claim C5: diffing any status map against itself yields the empty
difference map. -/
theorem c5_diff_self_empty (M : StatusMap) (h : NodupKeys M) :
    compare_results M M = [] := by
  apply eq_nil_of_aget_eq_none
  intro k
  rw [aget_compare_results M M h h]
  rcases hm : aget M k with _ | v <;> simp [hm]

/-- Witness for C5 at a concrete two-entry map. -/
theorem c5_diff_self_empty_witness :
    compare_results [(("a.html", none), "PASS"), (("a.html", some "sub"), "FAIL")]
        [(("a.html", none), "PASS"), (("a.html", some "sub"), "FAIL")] = [] :=
  c5_diff_self_empty _ (by decide)

/-- Claim C9: the Differ compares statuses of keys present in both maps
by exact, case-sensitive string equality — `"PASS"` vs `"pass"` is a
difference — and only the skip-suppression check for absent keys
lowercases the whole-test status before comparing it to `"skip"`. -/
theorem c9_case_sensitive_equality :
    (∀ (A B : StatusMap) (k : TestKey) (va vb : String), NodupKeys A → NodupKeys B →
      aget A k = some va → aget B k = some vb → va ≠ vb →
      aget (compare_results A B) k = some (some va, some vb)) ∧
    compare_results [(("t", none), "PASS")] [(("t", none), "pass")] =
      [(("t", none), (some "PASS", some "pass"))] ∧
    (∀ (A B : StatusMap) (t sub vb st : String), NodupKeys A → NodupKeys B →
      aget B (t, some sub) = some vb → aget A (t, some sub) = none →
      aget A (t, none) = some st → pylower st = "skip" →
      aget (compare_results A B) (t, some sub) = none) := by
  refine ⟨?_, by decide, ?_⟩
  · intro A B k va vb hA hB ha hb hne
    rw [aget_compare_results A B hA hB k, ha, hb]
    simp [hne]
  · intro A B t sub vb st hA hB hb ha hpar hskip
    rw [aget_compare_results A B hA hB (t, some sub), ha, hb]
    have hf : allowMissing A (t, some sub) = false := by
      rw [allowMissing_eq_false_iff]
      exact ⟨by simp, st, hpar, hskip⟩
    simp [hf]

/-- Witness for C9: `"PASS"` vs `"pass"` on the same key is reported as
a difference. -/
theorem c9_case_sensitive_equality_witness :
    aget (compare_results [(("a", none), "PASS")] [(("a", none), "pass")]) ("a", none) =
      some (some "PASS", some "pass") :=
  c9_case_sensitive_equality.1 _ _ ("a", none) "PASS" "pass"
    (by decide) (by decide) (by decide) (by decide) (by decide)

/-! ## The Job Classifier and Cohort Grouper (`JOB_NAMES`, `group_results_by_type`) -/

/-- The static `JOB_NAMES` table of `compare.py`:
job-type name → (suite name, e10s flag). -/
def JOB_NAMES : List (String × (String × Bool)) :=
  [("Mochitest e10s Browser Chrome", ("mochitest-bc", true)),
   ("Mochitest e10s Browser DevTools Chrome", ("mochitest-devtools", true)),
   ("Mochitest e10s Other", ("mochitest-other", true)),
   ("Mochitest e10s WebGL", ("mochitest-gl", true)),
   ("Mochitest e10s", ("mochitest-plain", true)),
   ("Mochitest Browser Chrome", ("mochitest-bc", false)),
   ("Mochitest Browser DevTools Chrome", ("mochitest-devtools", false)),
   ("Mochitest Other", ("mochitest-other", false)),
   ("Mochitest WebGL", ("mochitest-gl", false)),
   ("Mochitest", ("mochitest-plain", false)),
   ("W3C Web Platform Reftests e10s", ("wpt-reftest", true)),
   ("W3C Web Platform Tests e10s", ("wpt", true)),
   ("W3C Web Platform Reftests", ("wpt-reftest", false)),
   ("W3C Web Platform Tests", ("wpt", false))]

/-- `platform_id = result["platform"]`, extended by
`" " + platform_option` when the option is truthy. -/
def platformId (j : Job) : String :=
  match j.platform_option with
  | some o => if o ≠ "" then j.platform ++ " " ++ o else j.platform
  | none => j.platform

/-- The nested result of `group_results_by_type`:
suite name → platform id → (non-e10s jobs, e10s jobs). -/
abbrev GroupMap := List (String × List (String × (List Job × List Job)))

/-- `results_by_type[category][platform_id][int(e10s)].append(result)` at
the innermost level: the pair-of-lists indexed by the e10s flag. -/
def updPair (e10s : Bool) (j : Job) (p : List Job × List Job) : List Job × List Job :=
  if e10s then (p.1, p.2 ++ [j]) else (p.1 ++ [j], p.2)

/-- Defaultdict-style update at the platform level: find the platform's
pair (creating `([], [])` as the default) and append the job to the
mode-indexed list. -/
def updPlat (pid : String) (e10s : Bool) (j : Job) :
    List (String × (List Job × List Job)) → List (String × (List Job × List Job))
  | [] => [(pid, updPair e10s j ([], []))]
  | (p, v) :: rest =>
      if p = pid then (p, updPair e10s j v) :: rest else (p, v) :: updPlat pid e10s j rest

/-- Defaultdict-style update at the suite level. -/
def updCat (cat pid : String) (e10s : Bool) (j : Job) : GroupMap → GroupMap
  | [] => [(cat, updPlat pid e10s j [])]
  | (c, v) :: rest =>
      if c = cat then (c, updPlat pid e10s j v) :: rest else (c, v) :: updCat cat pid e10s j rest

/-- `group_results_by_type(job_data)` from `compare.py`: jobs whose
`job_type_name` is in `JOB_NAMES` are appended to the slot given by
their suite, platform id and e10s flag; other jobs are dropped. -/
def group_results_by_type (job_data : List Job) : GroupMap :=
  job_data.foldl (fun m j =>
    match aget JOB_NAMES j.job_type_name with
    | some (cat, e10s) => updCat cat (platformId j) e10s j m
    | none => m) []

/-- The content of one `(suite, platform, mode)` slot of the grouped
structure (empty when absent). -/
def slotOf (m : GroupMap) (cat pid : String) (mode : Bool) : List Job :=
  let pr := (aget ((aget m cat).getD []) pid).getD ([], [])
  if mode then pr.2 else pr.1

/-- The predicate deciding whether the Classifier sends a job to slot
`(c, p, mode)`. -/
def inSlot (c p : String) (mode : Bool) (j : Job) : Bool :=
  aget JOB_NAMES j.job_type_name = some (c, mode) && platformId j = p

theorem slotOf_updPair (pr : List Job × List Job) (e10s mode : Bool) (j : Job) :
    (if mode then (updPair e10s j pr).2 else (updPair e10s j pr).1) =
      (if mode then pr.2 else pr.1) ++ (if e10s = mode then [j] else []) := by
  rcases e10s <;> rcases mode <;> simp [updPair]

theorem aget_updPlat (pm : List (String × (List Job × List Job)))
    (pid : String) (e10s : Bool) (j : Job) (p : String) :
    aget (updPlat pid e10s j pm) p =
      if pid = p then some (updPair e10s j ((aget pm p).getD ([], [])))
      else aget pm p := by
  induction pm with
  | nil =>
    by_cases h : pid = p <;> simp [updPlat, aget, h]
  | cons kv rest ih =>
    obtain ⟨p', v⟩ := kv
    by_cases h : p' = pid
    · subst h
      by_cases h2 : p' = p
      · subst h2
        simp [updPlat, aget]
      · simp [updPlat, aget, h2, Ne.symm h2]
    · simp only [updPlat, if_neg h]
      by_cases h2 : p' = p
      · subst h2
        have : pid ≠ p' := Ne.symm h
        simp [aget, this]
      · simp [aget, h2, ih]

theorem aget_updCat (m : GroupMap) (cat pid : String) (e10s : Bool) (j : Job) (c : String) :
    aget (updCat cat pid e10s j m) c =
      if cat = c then some (updPlat pid e10s j ((aget m c).getD []))
      else aget m c := by
  induction m with
  | nil =>
    by_cases h : cat = c <;> simp [updCat, aget, h]
  | cons kv rest ih =>
    obtain ⟨c', v⟩ := kv
    by_cases h : c' = cat
    · subst h
      by_cases h2 : c' = c
      · subst h2
        simp [updCat, aget]
      · simp [updCat, aget, h2, Ne.symm h2]
    · simp only [updCat, if_neg h]
      by_cases h2 : c' = c
      · subst h2
        have : cat ≠ c' := Ne.symm h
        simp [aget, this]
      · simp [aget, h2, ih]

theorem slotOf_updCat (m : GroupMap) (cat pid : String) (e10s : Bool) (j : Job)
    (c p : String) (mode : Bool) :
    slotOf (updCat cat pid e10s j m) c p mode =
      slotOf m c p mode ++
        (if cat = c ∧ pid = p ∧ e10s = mode then [j] else []) := by
  unfold slotOf
  rw [aget_updCat]
  by_cases hc : cat = c
  · subst hc
    rw [if_pos rfl, Option.getD_some, aget_updPlat]
    by_cases hp : pid = p
    · subst hp
      rw [if_pos rfl, Option.getD_some, slotOf_updPair]
      simp
    · rw [if_neg hp]
      have h₀ : ¬ (cat = cat ∧ pid = p ∧ e10s = mode) := fun h => hp h.2.1
      rw [if_neg h₀, List.append_nil]
  · rw [if_neg hc]
    have : ¬ (cat = c ∧ pid = p ∧ e10s = mode) := fun h => hc h.1
    simp [this]

theorem inSlot_eq_true_iff (c p : String) (mode : Bool) (j : Job) :
    inSlot c p mode j = true ↔
      aget JOB_NAMES j.job_type_name = some (c, mode) ∧ platformId j = p := by
  simp [inSlot]

theorem slotOf_group_aux (l : List Job) (c p : String) (mode : Bool) : ∀ (m : GroupMap),
    slotOf (l.foldl (fun m j =>
      match aget JOB_NAMES j.job_type_name with
      | some (cat, e10s) => updCat cat (platformId j) e10s j m
      | none => m) m) c p mode =
    slotOf m c p mode ++ l.filter (inSlot c p mode) := by
  induction l with
  | nil => intro m; simp
  | cons j rest ih =>
    intro m
    rw [List.foldl_cons, List.filter_cons]
    rcases hj : aget JOB_NAMES j.job_type_name with _ | cm
    · simp only [hj]
      rw [ih]
      have hb : inSlot c p mode j = false := by
        rw [Bool.eq_false_iff]
        intro hb
        rw [(inSlot_eq_true_iff c p mode j).mp hb |>.1] at hj
        cases hj
      rw [hb]
      simp
    · obtain ⟨cat, e10s⟩ := cm
      simp only [hj]
      rw [ih, slotOf_updCat]
      by_cases hb : inSlot c p mode j = true
      · obtain ⟨heq, hp⟩ := (inSlot_eq_true_iff c p mode j).mp hb
        rw [hj] at heq
        injection heq with heq'
        have hcat : cat = c := congrArg Prod.fst heq'
        have hmode : e10s = mode := congrArg Prod.snd heq'
        rw [hb, if_pos ⟨hcat, hp, hmode⟩, List.append_assoc]
        simp
      · have hcond : ¬ (cat = c ∧ platformId j = p ∧ e10s = mode) := by
          intro hcon
          apply hb
          rw [inSlot_eq_true_iff, hj, hcon.1, hcon.2.2]
          exact ⟨rfl, hcon.2.1⟩
        rw [Bool.not_eq_true] at hb
        rw [hb, if_neg hcond]
        simp

/-- Every slot of the Cohort Grouper's output is exactly the input jobs
classified to that (suite, platform, mode), in input order. -/
theorem slotOf_group_results_by_type (job_data : List Job) (c p : String) (mode : Bool) :
    slotOf (group_results_by_type job_data) c p mode =
      job_data.filter (inSlot c p mode) := by
  unfold group_results_by_type
  rw [slotOf_group_aux]
  simp [slotOf, aget]

/-- Claim C6: the Cohort Grouper sends every job whose job-type name is
in the static `JOB_NAMES` table to exactly one (suite, platform, mode)
slot — the one given by its classified suite, its platform id (platform
space-joined with a truthy platform option), and its isolation mode —
and drops every job with an unmapped job-type name; index 0 of a
platform's pair holds the non-isolated jobs and index 1 the isolated
ones. -/
theorem c6_cohort_grouper (job_data : List Job) (j : Job) (hj : j ∈ job_data) :
    (∀ cat mode, aget JOB_NAMES j.job_type_name = some (cat, mode) →
      j ∈ slotOf (group_results_by_type job_data) cat (platformId j) mode ∧
      ∀ c p m, ¬ (c = cat ∧ p = platformId j ∧ m = mode) →
        j ∉ slotOf (group_results_by_type job_data) c p m) ∧
    (aget JOB_NAMES j.job_type_name = none →
      ∀ c p m, j ∉ slotOf (group_results_by_type job_data) c p m) := by
  constructor
  · intro cat mode hcl
    constructor
    · rw [slotOf_group_results_by_type, List.mem_filter]
      exact ⟨hj, by rw [inSlot_eq_true_iff]; exact ⟨hcl, rfl⟩⟩
    · intro c p m hne hmem
      rw [slotOf_group_results_by_type, List.mem_filter, inSlot_eq_true_iff] at hmem
      obtain ⟨-, heq, hp⟩ := hmem
      rw [hcl] at heq
      injection heq with heq'
      cases heq'
      exact hne ⟨rfl, hp.symm, rfl⟩
  · intro hnone c p m hmem
    rw [slotOf_group_results_by_type, List.mem_filter, inSlot_eq_true_iff] at hmem
    rw [hnone] at hmem
    cases hmem.2.1

/-! ## Decimal representation facts, for the `" - %s" % i` disambiguator

The collision policy of `ResultHandler._insert` suffixes `" - i"` with
`i` rendered in decimal; termination and minimality of the search need
that distinct integers render distinctly (`Nat.repr` is injective),
proved here by evaluating the digit string back to the number. -/

/-- The numeric value of a decimal digit character. -/
def decval (c : Char) : Nat := c.toNat - 48

theorem decval_digitChar : ∀ m, m < 10 → decval (Nat.digitChar m) = m := by decide

/-- Most-significant-first evaluation of a decimal digit string. -/
def evalChars (l : List Char) : Nat := l.foldl (fun a c => 10 * a + decval c) 0

theorem toDigitsCore_acc (b : Nat) : ∀ (f n : Nat) (ds : List Char),
    Nat.toDigitsCore b f n ds = Nat.toDigitsCore b f n [] ++ ds := by
  intro f
  induction f with
  | zero => intro n ds; simp [Nat.toDigitsCore]
  | succ f ih =>
    intro n ds
    simp only [Nat.toDigitsCore]
    by_cases h : n / b = 0
    · simp [h]
    · simp only [h, if_false]
      rw [ih (n / b) (Nat.digitChar (n % b) :: ds), ih (n / b) [Nat.digitChar (n % b)]]
      simp

theorem toDigitsCore_fuel : ∀ (f₁ f₂ n : Nat), n < f₁ → n < f₂ →
    Nat.toDigitsCore 10 f₁ n [] = Nat.toDigitsCore 10 f₂ n [] := by
  intro f₁
  induction f₁ with
  | zero => intro f₂ n h1 h2; omega
  | succ f ih =>
    intro f₂ n h1 h2
    cases f₂ with
    | zero => omega
    | succ f₂ =>
      simp only [Nat.toDigitsCore]
      by_cases h : n / 10 = 0
      · simp [h]
      · simp only [h, if_false]
        have hn : 0 < n := Nat.pos_of_ne_zero (fun h0 => h (by simp [h0]))
        have hlt : n / 10 < n := Nat.div_lt_self hn (by norm_num)
        rw [toDigitsCore_acc 10 f (n / 10), toDigitsCore_acc 10 f₂ (n / 10)]
        rw [ih f₂ (n / 10) (by omega) (by omega)]

theorem toDigitsCore_succ (n : Nat) (f : Nat) (ds : List Char) :
    Nat.toDigitsCore 10 (f + 1) n ds =
      if n / 10 = 0 then Nat.digitChar (n % 10) :: ds
      else Nat.toDigitsCore 10 f (n / 10) (Nat.digitChar (n % 10) :: ds) := rfl

theorem toDigits_step (n : Nat) (h : n / 10 ≠ 0) :
    Nat.toDigits 10 n = Nat.toDigits 10 (n / 10) ++ [Nat.digitChar (n % 10)] := by
  unfold Nat.toDigits
  rw [toDigitsCore_succ, if_neg h]
  rw [toDigitsCore_acc]
  congr 1
  apply toDigitsCore_fuel
  · exact Nat.div_lt_self (Nat.pos_of_ne_zero (fun h0 => h (by simp [h0]))) (by norm_num)
  · exact Nat.lt_succ_self _

theorem evalChars_append_singleton (l : List Char) (c : Char) :
    evalChars (l ++ [c]) = 10 * evalChars l + decval c := by
  unfold evalChars
  rw [List.foldl_append]
  simp

theorem evalChars_toDigits (n : Nat) : evalChars (Nat.toDigits 10 n) = n := by
  induction n using Nat.strong_induction_on with
  | _ n ih =>
    by_cases h : n / 10 = 0
    · have hn : n < 10 := by omega
      unfold Nat.toDigits
      rw [toDigitsCore_succ, if_pos h]
      have hm : n % 10 = n := Nat.mod_eq_of_lt hn
      unfold evalChars
      simp [hm, decval_digitChar n hn]
    · have hn : 0 < n := Nat.pos_of_ne_zero (fun h0 => h (by simp [h0]))
      rw [toDigits_step n h, evalChars_append_singleton,
        ih (n / 10) (Nat.div_lt_self hn (by norm_num)),
        decval_digitChar _ (Nat.mod_lt _ (by norm_num))]
      omega

theorem nat_repr_injective (m n : Nat) (h : Nat.repr m = Nat.repr n) : m = n := by
  unfold Nat.repr at h
  have h2 : Nat.toDigits 10 m = Nat.toDigits 10 n := List.asString_inj.mp h
  calc m = evalChars (Nat.toDigits 10 m) := (evalChars_toDigits m).symm
  _ = evalChars (Nat.toDigits 10 n) := by rw [h2]
  _ = n := evalChars_toDigits n

theorem toDigits_ne_nil (n : Nat) : Nat.toDigits 10 n ≠ [] := by
  unfold Nat.toDigits
  rw [toDigitsCore_succ]
  by_cases h : n / 10 = 0
  · simp [h]
  · simp only [h, if_false]
    rw [toDigitsCore_acc]
    simp

theorem repr_length_pos (n : Nat) : 0 < (Nat.repr n).length := by
  unfold Nat.repr
  rw [String.length]
  simp only [List.asString]
  cases hd : Nat.toDigits 10 n with
  | nil => exact absurd hd (toDigits_ne_nil n)
  | cons c cs => simp

/-! ## The Log Ingestor's collision policy (`ResultHandler._insert`) -/

/-- `ResultHandler.data`: TestKey → (status, owning job). -/
abbrev HandlerData := List (TestKey × (String × Job))

/-- The candidate key tried at attempt `i` of the disambiguation loop:
`possibility = key[idx] + " - %s" % i` with `idx = int(key[1] is not None)`,
i.e. the suffix goes on the subtest component when it is non-null and on
the test component otherwise. -/
def mkCand (key : TestKey) (i : Nat) : TestKey :=
  match key.2 with
  | some s => (key.1, some (s ++ " - " ++ Nat.repr i))
  | none => (key.1 ++ " - " ++ Nat.repr i, none)

theorem append_repr_inj (s : String) (i j : Nat)
    (h : s ++ " - " ++ Nat.repr i = s ++ " - " ++ Nat.repr j) : i = j := by
  apply nat_repr_injective
  have hd : (s ++ " - " ++ Nat.repr i).data = (s ++ " - " ++ Nat.repr j).data := by rw [h]
  simp only [String.data_append] at hd
  have := List.append_cancel_left hd
  exact String.toList_inj.mp this

theorem mkCand_inj (key : TestKey) (i j : Nat) (h : mkCand key i = mkCand key j) :
    i = j := by
  unfold mkCand at h
  rcases key with ⟨t, _ | s⟩
  · simp only at h
    exact append_repr_inj t i j (congrArg Prod.fst h)
  · simp only [Prod.mk.injEq, Option.some.injEq] at h
    exact append_repr_inj s i j h.2

theorem self_ne_append_repr (s : String) (m : Nat) :
    s ≠ s ++ " - " ++ Nat.repr m := by
  intro h
  have hl := congrArg String.length h
  rw [String.length_append, String.length_append] at hl
  have := repr_length_pos m
  omega

theorem hasKey_iff_mem_keysOf {κ δ : Type} [DecidableEq κ] (m : List (κ × δ)) (k : κ) :
    hasKey m k = true ↔ k ∈ keysOf m := by
  unfold hasKey
  rw [Option.isSome_iff_ne_none]
  constructor
  · intro h
    by_contra hmem
    exact h ((aget_eq_none_iff m k).mpr hmem)
  · intro h hc
    exact ((aget_eq_none_iff m k).mp hc) h

/-- The disambiguation loop terminates: some attempt yields a key not in
the (finite) map. -/
theorem exists_fresh (data : HandlerData) (key : TestKey) :
    ∃ i, hasKey data (mkCand key (i + 1)) = false := by
  by_contra hall
  push_neg at hall
  have hall' : ∀ i, hasKey data (mkCand key (i + 1)) = true := by
    intro i
    cases hb : hasKey data (mkCand key (i + 1)) with
    | false => exact absurd hb (hall i)
    | true => rfl
  have hinj : Function.Injective (fun i : Nat => mkCand key (i + 1)) := by
    intro a b hab
    have := mkCand_inj key (a + 1) (b + 1) hab
    omega
  have hsub : (Finset.range (data.length + 1)).image (fun i => mkCand key (i + 1)) ⊆
      (keysOf data).toFinset := by
    intro x hx
    rw [Finset.mem_image] at hx
    obtain ⟨i, -, rfl⟩ := hx
    rw [List.mem_toFinset]
    exact (hasKey_iff_mem_keysOf data _).mp (hall' i)
  have hcard := Finset.card_le_card hsub
  rw [Finset.card_image_of_injective _ hinj, Finset.card_range] at hcard
  have hle : (keysOf data).toFinset.card ≤ data.length := by
    calc (keysOf data).toFinset.card ≤ (keysOf data).length := (keysOf data).toFinset_card_le
    _ = data.length := by simp [keysOf]
  omega

/-- The key actually inserted by the `while True` loop of `_insert` when
`key` is already present: the candidate at the least successful attempt. -/
def freshKey (data : HandlerData) (key : TestKey) : TestKey :=
  mkCand key (Nat.find (exists_fresh data key) + 1)

/-- `ResultHandler._insert(key, status)` from `compare.py`; the current
job (`self.result`) is passed explicitly. -/
def insert_ (data : HandlerData) (key : TestKey) (status : String) (job : Job) :
    HandlerData :=
  let key' := if hasKey data key then freshKey data key else key
  dinsert key' (status, job) data

/-- The structured-log events consumed by `ResultHandler`; everything
other than test-end and test-status is ignored. -/
inductive LogEvent where
  | test_end (test status : String)
  | test_status (test subtest status : String)
  | other
deriving Repr

/-- Dispatch of one log event by `ResultHandler`. -/
def handleEvent (job : Job) (data : HandlerData) : LogEvent → HandlerData
  | .test_end t s => insert_ data (t, none) s job
  | .test_status t sub s => insert_ data (t, some sub) s job
  | .other => data

theorem hasKey_cons {κ δ : Type} [DecidableEq κ] (k : κ) (v : δ) (rest : List (κ × δ))
    (k' : κ) : hasKey ((k, v) :: rest) k' = (decide (k = k') || hasKey rest k') := by
  unfold hasKey
  have h0 : aget ((k, v) :: rest) k' = if k = k' then some v else aget rest k' := rfl
  rw [h0]
  by_cases h : k = k' <;> simp [h]

theorem hasKey_eq_false_iff {κ δ : Type} [DecidableEq κ] (m : List (κ × δ)) (k : κ) :
    hasKey m k = false ↔ aget m k = none := by
  unfold hasKey
  cases h : aget m k <;> simp [h]

theorem freshKey_not_hasKey (data : HandlerData) (key : TestKey) :
    hasKey data (freshKey data key) = false :=
  Nat.find_spec (exists_fresh data key)

theorem freshKey_minimal (data : HandlerData) (key : TestKey) (j : Nat)
    (h1 : 1 ≤ j) (h2 : j < Nat.find (exists_fresh data key) + 1) :
    hasKey data (mkCand key j) = true := by
  have hmin := Nat.find_min (exists_fresh data key) (show j - 1 < Nat.find (exists_fresh data key) by omega)
  have hj : j - 1 + 1 = j := by omega
  rw [hj] at hmin
  cases hb : hasKey data (mkCand key j) with
  | false => exact absurd hb hmin
  | true => rfl

/-- `_insert` always appends one fresh binding at the end of the map. -/
theorem insert_eq_append (data : HandlerData) (key : TestKey) (status : String)
    (job : Job) :
    hasKey data (if hasKey data key then freshKey data key else key) = false ∧
    insert_ data key status job =
      data ++ [((if hasKey data key then freshKey data key else key), (status, job))] := by
  have hfresh : hasKey data (if hasKey data key then freshKey data key else key) = false := by
    cases hk : hasKey data key with
    | true => simp only [if_pos rfl]; exact freshKey_not_hasKey data key
    | false => simp only [Bool.false_eq_true, if_neg]; simp [hk]
  refine ⟨hfresh, ?_⟩
  unfold insert_
  exact dinsert_of_aget_none _ _ _ ((hasKey_eq_false_iff _ _).mp hfresh)

/-- The map built by repeatedly handling `test_end(t, status)` events:
what n duplicate insertions of the same test id produce. -/
def insertEnds (job : Job) (t : String) (statuses : List String)
    (data : HandlerData) : HandlerData :=
  statuses.foldl (fun d st => handleEvent job d (.test_end t st)) data

/-- The expected tail of the map after duplicate test-end insertions:
entries under `t ++ " - " ++ i` for consecutive `i`. -/
def suffixedEntries (job : Job) (t : String) : Nat → List String → HandlerData
  | _, [] => []
  | i, st :: rest =>
      ((t ++ " - " ++ Nat.repr i, none), (st, job)) :: suffixedEntries job t (i + 1) rest

theorem suffixedEntries_length (job : Job) (t : String) :
    ∀ (ss : List String) (i : Nat), (suffixedEntries job t i ss).length = ss.length := by
  intro ss
  induction ss with
  | nil => intro i; rfl
  | cons st rest ih => intro i; simp [suffixedEntries, ih]

theorem hasKey_suffixedEntries (job : Job) (t : String) :
    ∀ (ss : List String) (i m : Nat),
      (hasKey (suffixedEntries job t i ss) (t ++ " - " ++ Nat.repr m, none) = true) ↔
        (i ≤ m ∧ m < i + ss.length) := by
  intro ss
  induction ss with
  | nil =>
    intro i m
    constructor
    · intro hc
      exact Bool.noConfusion hc
    · rintro ⟨h1, h2⟩
      simp only [List.length_nil] at h2
      omega
  | cons st rest ih =>
    intro i m
    rw [suffixedEntries, hasKey_cons]
    simp only [Bool.or_eq_true, decide_eq_true_eq, ih (i + 1) m]
    constructor
    · rintro (heq | ⟨h1, h2⟩)
      · have hfst : t ++ " - " ++ Nat.repr i = t ++ " - " ++ Nat.repr m :=
          congrArg Prod.fst heq
        have := append_repr_inj t i m hfst
        subst this
        simp only [List.length_cons]
        omega
      · simp only [List.length_cons]
        omega
    · rintro ⟨h1, h2⟩
      simp only [List.length_cons] at h2
      by_cases him : i = m
      · left
        rw [him]
      · right
        exact ⟨by omega, by omega⟩

theorem hasKey_suffixedEntries_plain (job : Job) (t : String) :
    ∀ (ss : List String) (i : Nat),
      hasKey (suffixedEntries job t i ss) (t, none) = false := by
  intro ss
  induction ss with
  | nil => intro i; rfl
  | cons st rest ih =>
    intro i
    rw [suffixedEntries, hasKey_cons, ih (i + 1)]
    have : ¬ ((t ++ " - " ++ Nat.repr i, (none : Option String)) = (t, none)) := by
      intro h
      exact self_ne_append_repr t i (congrArg Prod.fst h).symm
    simp [this]

theorem suffixedEntries_append (job : Job) (t : String) :
    ∀ (ss : List String) (st : String) (i : Nat),
      suffixedEntries job t i (ss ++ [st]) =
        suffixedEntries job t i ss ++
          [((t ++ " - " ++ Nat.repr (i + ss.length), none), (st, job))] := by
  intro ss
  induction ss with
  | nil => intro st i; simp [suffixedEntries]
  | cons st0 rest ih =>
    intro st i
    show ((t ++ " - " ++ Nat.repr i, none), (st0, job)) ::
        suffixedEntries job t (i + 1) (rest ++ [st]) = _
    rw [ih st (i + 1)]
    have h3 : i + 1 + rest.length = i + (st0 :: rest).length := by simp; omega
    rw [h3]
    rfl

theorem insertEnds_step (job : Job) (t s st : String) (vals : List String) :
    handleEvent job (((t, none), (s, job)) :: suffixedEntries job t 1 vals)
        (.test_end t st) =
      ((t, none), (s, job)) :: suffixedEntries job t 1 (vals ++ [st]) := by
  set D := ((t, none), (s, job)) :: suffixedEntries job t 1 vals with hD
  show insert_ D (t, none) st job = _
  have hhas : hasKey D (t, none) = true := by
    rw [hD, hasKey_cons]
    simp
  have hfind : Nat.find (exists_fresh D (t, none)) = vals.length := by
    rw [Nat.find_eq_iff]
    constructor
    · show hasKey D (mkCand (t, none) (vals.length + 1)) = false
      rw [show mkCand ((t : String), (none : Option String)) (vals.length + 1) =
        (t ++ " - " ++ Nat.repr (vals.length + 1), none) from rfl]
      rw [hD, hasKey_cons]
      have h2 : hasKey (suffixedEntries job t 1 vals)
          (t ++ " - " ++ Nat.repr (vals.length + 1), none) = false := by
        rw [Bool.eq_false_iff]
        intro hc
        have := (hasKey_suffixedEntries job t vals 1 (vals.length + 1)).mp hc
        omega
      rw [h2]
      have h1 : ¬ (((t : String), (none : Option String)) =
          (t ++ " - " ++ Nat.repr (vals.length + 1), (none : Option String))) := by
        intro h
        exact self_ne_append_repr t (vals.length + 1) (congrArg Prod.fst h)
      simp [h1]
    · intro j hj
      have htrue : hasKey D (mkCand (t, none) (j + 1)) = true := by
        rw [show mkCand ((t : String), (none : Option String)) (j + 1) =
          (t ++ " - " ++ Nat.repr (j + 1), none) from rfl]
        rw [hD, hasKey_cons]
        have h3 : hasKey (suffixedEntries job t 1 vals)
            (t ++ " - " ++ Nat.repr (j + 1), none) = true := by
          rw [hasKey_suffixedEntries]
          omega
        rw [h3]
        simp
      rw [htrue]
      simp
  have happ := (insert_eq_append D (t, none) st job).2
  rw [if_pos hhas] at happ
  rw [happ]
  have hkey : freshKey D (t, none) =
      (t ++ " - " ++ Nat.repr (vals.length + 1), none) := by
    unfold freshKey
    rw [hfind]
    rfl
  have hplus : 1 + vals.length = vals.length + 1 := by omega
  rw [hkey, hD, suffixedEntries_append, hplus]
  simp

theorem insertEnds_aux (job : Job) (t s : String) :
    ∀ (ss vals : List String),
      insertEnds job t ss (((t, none), (s, job)) :: suffixedEntries job t 1 vals) =
        ((t, none), (s, job)) :: suffixedEntries job t 1 (vals ++ ss) := by
  intro ss
  induction ss with
  | nil => intro vals; simp [insertEnds]
  | cons st rest ih =>
    intro vals
    show insertEnds job t rest (handleEvent job _ (.test_end t st)) = _
    rw [insertEnds_step job t s st vals, ih (vals ++ [st]), List.append_assoc]
    rfl

/-- Claim C2: inserting a status for a TestKey already present never
overwrites: the inserted key is `mkCand key i` — the key with `" - i"`
appended to its subtest component when non-null, else its test
component — for the smallest positive `i` whose candidate is not yet in
the map; every previous entry is unchanged, every insertion grows the
map by exactly one entry, and n+1 test-end events with one test id
yield the original key plus keys suffixed `" - 1"` … `" - n"`. -/
theorem c2_collision_policy :
    (∀ (data : HandlerData) (key : TestKey) (status : String) (job : Job),
      (∀ k v, aget data k = some v → aget (insert_ data key status job) k = some v) ∧
      (insert_ data key status job).length = data.length + 1 ∧
      (hasKey data key = true →
        ∃ i, 1 ≤ i ∧ hasKey data (mkCand key i) = false ∧
          (∀ j, 1 ≤ j → j < i → hasKey data (mkCand key j) = true) ∧
          insert_ data key status job = data ++ [(mkCand key i, (status, job))])) ∧
    (∀ (job : Job) (t s : String) (ss : List String),
      insertEnds job t (s :: ss) [] =
        ((t, none), (s, job)) :: suffixedEntries job t 1 ss ∧
      (insertEnds job t (s :: ss) []).length = ss.length + 1) := by
  constructor
  · intro data key status job
    obtain ⟨hfresh, happ⟩ := insert_eq_append data key status job
    refine ⟨?_, ?_, ?_⟩
    · intro k v hv
      rw [happ, aget_append, hv]
    · rw [happ]
      simp
    · intro hk
      refine ⟨Nat.find (exists_fresh data key) + 1, by omega,
        freshKey_not_hasKey data key, ?_, ?_⟩
      · intro j h1 h2
        exact freshKey_minimal data key j h1 h2
      · rw [happ, if_pos hk]
        rfl
  · intro job t s ss
    have h0 : handleEvent job [] (.test_end t s) = [((t, none), (s, job))] := rfl
    have hmain : insertEnds job t (s :: ss) [] =
        ((t, none), (s, job)) :: suffixedEntries job t 1 ss := by
      show insertEnds job t ss (handleEvent job [] (.test_end t s)) = _
      rw [h0]
      have := insertEnds_aux job t s ss []
      simpa [suffixedEntries] using this
    refine ⟨hmain, ?_⟩
    rw [hmain]
    simp [suffixedEntries_length]

/-- Witness for C2: three test-end events for `"t"` produce entries
under `"t"`, `"t - 1"` and `"t - 2"`, the first entry surviving a
duplicate insertion untouched. -/
theorem c2_collision_policy_witness :
    insertEnds (Job.mk 0 "" "" none "") "t" ["PASS", "FAIL", "ERROR"] [] =
      [(("t", none), ("PASS", Job.mk 0 "" "" none "")),
       (("t - 1", none), ("FAIL", Job.mk 0 "" "" none "")),
       (("t - 2", none), ("ERROR", Job.mk 0 "" "" none ""))] ∧
    aget (insert_ [(("t", none), ("PASS", Job.mk 0 "" "" none ""))] ("t", none) "FAIL"
        (Job.mk 0 "" "" none "")) ("t", none) = some ("PASS", Job.mk 0 "" "" none "") := by
  constructor
  · exact (c2_collision_policy.2 (Job.mk 0 "" "" none "") "t" "PASS" ["FAIL", "ERROR"]).1.trans
      (by decide)
  · exact (c2_collision_policy.1 [(("t", none), ("PASS", Job.mk 0 "" "" none ""))]
      ("t", none) "FAIL" (Job.mk 0 "" "" none "")).1 ("t", none)
      ("PASS", Job.mk 0 "" "" none "") (by decide)

/-- Witness for C6: a concrete `"Mochitest"` job on `linux64 opt` lands
in the `("mochitest-plain", "linux64 opt", non-e10s)` slot. -/
theorem c6_cohort_grouper_witness :
    platformId (Job.mk 1 "Mochitest" "linux64" (some "opt") "x") = "linux64 opt" ∧
    Job.mk 1 "Mochitest" "linux64" (some "opt") "x" ∈
      slotOf (group_results_by_type [Job.mk 1 "Mochitest" "linux64" (some "opt") "x"])
        "mochitest-plain" (platformId (Job.mk 1 "Mochitest" "linux64" (some "opt") "x"))
        false :=
  ⟨by decide,
   (c6_cohort_grouper _ _ (by decide) |>.1 "mochitest-plain" false (by decide)).1⟩

/-! ## The Report Aggregator (`group_by_test`) -/

/-- Python's lexicographic string comparison, modelled structurally over
the character lists. -/
def pyLtChars : List Char → List Char → Bool
  | [], [] => false
  | [], _ :: _ => true
  | _ :: _, [] => false
  | a :: as, b :: bs => if a < b then true else if b < a then false else pyLtChars as bs

/-- `a < b` on Python strings. -/
def pyLtStr (a b : String) : Bool := pyLtChars a.data b.data

/-- `a <= b` on Python strings. -/
def pyLeStr (a b : String) : Bool := !pyLtStr b a

/-- Python's comparison on optional strings: `None` sorts before every
string. -/
def pyLtOpt : Option String → Option String → Bool
  | none, none => false
  | none, some _ => true
  | some _, none => false
  | some a, some b => pyLtStr a b

/-- Python's tuple comparison on `(test, subtest)` keys, as used by
`sorted(differences.iteritems())` (values are never reached because dict
keys are unique). -/
def pyLtKey (a b : TestKey) : Bool :=
  pyLtStr a.1 b.1 || (a.1 = b.1 && pyLtOpt a.2 b.2)

/-- Insertion step of the sort used to model Python's `sorted`. -/
def insertSortedKV {α : Type} (x : TestKey × α) : List (TestKey × α) → List (TestKey × α)
  | [] => [x]
  | y :: ys => if pyLtKey x.1 y.1 then x :: y :: ys else y :: insertSortedKV x ys

/-- `sorted(d.iteritems())`: the dict items ordered by key. -/
def sortItems {α : Type} (l : List (TestKey × α)) : List (TestKey × α) :=
  l.foldr insertSortedKV []

theorem insertSortedKV_perm {α : Type} (x : TestKey × α) (l : List (TestKey × α)) :
    List.Perm (insertSortedKV x l) (x :: l) := by
  induction l with
  | nil => rfl
  | cons y ys ih =>
    unfold insertSortedKV
    by_cases h : pyLtKey x.1 y.1
    · simp [h]
    · simp only [h, if_false]
      exact (List.Perm.cons y ih).trans (List.Perm.swap x y ys)

theorem sortItems_perm {α : Type} (l : List (TestKey × α)) :
    List.Perm (sortItems l) l := by
  induction l with
  | nil => rfl
  | cons y ys ih =>
    unfold sortItems
    rw [List.foldr_cons]
    exact (insertSortedKV_perm y _).trans (List.Perm.cons y ih)

/-- A non-isolated/isolated status pair. -/
abbrev StatusPair := Option String × Option String

/-- The aggregated structure: TestKey → status pair → platform list. -/
abbrev ByTest := List (TestKey × List (StatusPair × List String))

/-- `d[k].append(v)` on a `defaultdict(list)`. -/
def appendAt {κ α : Type} [DecidableEq κ] (k : κ) (v : α) :
    List (κ × List α) → List (κ × List α)
  | [] => [(k, [v])]
  | (k', vs) :: rest =>
      if k' = k then (k', vs ++ [v]) :: rest else (k', vs) :: appendAt k v rest

/-- `by_test[test][tuple(results)].append(platform)` on the nested
defaultdicts. -/
def addTestEntry (tk : TestKey) (pr : StatusPair) (plat : String) : ByTest → ByTest
  | [] => [(tk, [(pr, [plat])])]
  | (t', inner) :: rest =>
      if t' = tk then (t', appendAt pr plat inner) :: rest
      else (t', inner) :: addTestEntry tk pr plat rest

/-- `group_by_test(by_platform)` from `compare.py`. -/
def group_by_test (by_platform : List (String × DiffMap)) : ByTest :=
  by_platform.foldl (fun bt pd =>
    (sortItems pd.2).foldl (fun bt kv => addTestEntry kv.1 kv.2 pd.1 bt) bt) []

/-- The platform list recorded for one (test key, status pair). -/
def platsFor (bt : ByTest) (tk : TestKey) (pr : StatusPair) : List String :=
  (aget ((aget bt tk).getD []) pr).getD []

theorem aget_appendAt {κ α : Type} [DecidableEq κ] (k : κ) (v : α)
    (m : List (κ × List α)) (k' : κ) :
    aget (appendAt k v m) k' =
      if k = k' then some (((aget m k').getD []) ++ [v]) else aget m k' := by
  induction m with
  | nil =>
    by_cases h : k = k' <;> simp [appendAt, aget, h]
  | cons kv rest ih =>
    obtain ⟨k₀, vs₀⟩ := kv
    by_cases h : k₀ = k
    · subst h
      by_cases h2 : k₀ = k'
      · subst h2
        simp [appendAt, aget]
      · simp [appendAt, aget, h2, Ne.symm h2]
    · simp only [appendAt, if_neg h]
      by_cases h2 : k₀ = k'
      · subst h2
        have : k ≠ k₀ := Ne.symm h
        simp [aget, this]
      · simp [aget, h2, ih]

theorem aget_addTestEntry (tk : TestKey) (pr : StatusPair) (plat : String)
    (bt : ByTest) (tk' : TestKey) :
    aget (addTestEntry tk pr plat bt) tk' =
      if tk = tk' then some (appendAt pr plat ((aget bt tk').getD []))
      else aget bt tk' := by
  induction bt with
  | nil =>
    by_cases h : tk = tk' <;> simp [addTestEntry, aget, appendAt, h]
  | cons kv rest ih =>
    obtain ⟨t₀, inner₀⟩ := kv
    by_cases h : t₀ = tk
    · subst h
      by_cases h2 : t₀ = tk'
      · subst h2
        simp [addTestEntry, aget]
      · simp [addTestEntry, aget, h2, Ne.symm h2]
    · simp only [addTestEntry, if_neg h]
      by_cases h2 : t₀ = tk'
      · subst h2
        have hne : tk ≠ t₀ := Ne.symm h
        simp [aget, hne]
      · simp [aget, h2, ih]

theorem platsFor_addTestEntry (tk : TestKey) (pr : StatusPair) (plat : String)
    (bt : ByTest) (tk' : TestKey) (pr' : StatusPair) :
    platsFor (addTestEntry tk pr plat bt) tk' pr' =
      platsFor bt tk' pr' ++ (if tk = tk' ∧ pr = pr' then [plat] else []) := by
  unfold platsFor
  rw [aget_addTestEntry]
  by_cases h1 : tk = tk'
  · subst h1
    rw [if_pos rfl, Option.getD_some, aget_appendAt]
    by_cases h2 : pr = pr'
    · subst h2
      simp
    · rw [if_neg h2]
      simp
      exact h2
  · rw [if_neg h1]
    have h3 : ¬ (tk = tk' ∧ pr = pr') := fun hc => h1 hc.1
    simp [h3]

/-- Occurrence count of an entry, self-contained to keep one notion of
equality throughout. -/
def pcount (x : TestKey × StatusPair) : List (TestKey × StatusPair) → Nat
  | [] => 0
  | y :: ys => pcount x ys + (if y = x then 1 else 0)

theorem pcount_perm (x : TestKey × StatusPair) (l₁ l₂ : List (TestKey × StatusPair))
    (h : List.Perm l₁ l₂) : pcount x l₁ = pcount x l₂ := by
  induction h with
  | nil => rfl
  | cons y _ ih => simp [pcount, ih]
  | swap a b l => simp [pcount]; omega
  | trans _ _ ih₁ ih₂ => exact ih₁.trans ih₂

theorem pcount_eq_zero (x : TestKey × StatusPair) (l : List (TestKey × StatusPair))
    (h : x ∉ l) : pcount x l = 0 := by
  induction l with
  | nil => rfl
  | cons y ys ih =>
    have hy : y ≠ x := fun hc => h (hc ▸ List.mem_cons_self _ _)
    simp only [pcount, if_neg hy, Nat.add_zero]
    exact ih (fun hc => h (List.mem_cons_of_mem _ hc))

theorem platsFor_inner_fold (plat : String) (tk : TestKey) (pr : StatusPair) :
    ∀ (l : List (TestKey × StatusPair)) (bt : ByTest),
      platsFor (l.foldl (fun bt kv => addTestEntry kv.1 kv.2 plat bt) bt) tk pr =
        platsFor bt tk pr ++ List.replicate (pcount (tk, pr) l) plat := by
  intro l
  induction l with
  | nil => intro bt; simp [pcount]
  | cons kv rest ih =>
    intro bt
    rw [List.foldl_cons, ih, platsFor_addTestEntry]
    by_cases h : kv = (tk, pr)
    · obtain ⟨hk1, hk2⟩ : kv.1 = tk ∧ kv.2 = pr := by rw [h]; exact ⟨rfl, rfl⟩
      rw [if_pos ⟨hk1, hk2⟩]
      have hcnt : pcount (tk, pr) (kv :: rest) = pcount (tk, pr) rest + 1 := by
        simp [pcount, h]
      rw [hcnt, List.append_assoc, List.singleton_append, ← List.replicate_succ]
    · have h1 : ¬ (kv.1 = tk ∧ kv.2 = pr) := by
        intro hc
        exact h (Prod.ext hc.1 hc.2)
      have hcnt : pcount (tk, pr) (kv :: rest) = pcount (tk, pr) rest := by
        simp [pcount, h]
      rw [hcnt]
      simp [h1]

theorem count_eq_of_nodupKeys (m : List (TestKey × StatusPair)) (hm : NodupKeys m)
    (tk : TestKey) (pr : StatusPair) :
    pcount (tk, pr) m = if aget m tk = some pr then 1 else 0 := by
  induction m with
  | nil => simp [aget, pcount]
  | cons kv rest ih =>
    obtain ⟨k₀, v₀⟩ := kv
    simp only [NodupKeys, keysOf, List.map_cons, List.nodup_cons] at hm
    have hrest := ih hm.2
    by_cases hk : k₀ = tk
    · subst hk
      have hnotmem : ∀ v, ((k₀, v) : TestKey × StatusPair) ∉ rest := by
        intro v hc
        exact hm.1 (List.mem_map.mpr ⟨(k₀, v), hc, rfl⟩)
      have hcount0 : pcount (k₀, pr) rest = 0 := pcount_eq_zero _ _ (hnotmem pr)
      have hset : aget ((k₀, v₀) :: rest) k₀ = some v₀ := by simp [aget]
      rw [hset]
      by_cases hv : v₀ = pr
      · subst hv
        simp [pcount, hcount0]
      · have hne : ((k₀, v₀) : TestKey × StatusPair) ≠ (k₀, pr) := by
          intro hc
          exact hv (congrArg Prod.snd hc)
        simp [pcount, hne, hcount0, hv]
    · have hne : ((k₀, v₀) : TestKey × StatusPair) ≠ (tk, pr) := by
        intro hc
        exact hk (congrArg Prod.fst hc)
      have hset : aget ((k₀, v₀) :: rest) tk = aget rest tk := by simp [aget, hk]
      simp only [pcount, if_neg hne, Nat.add_zero]
      rw [hrest, hset]

theorem platsFor_group_by_test (bp : List (String × DiffMap))
    (h : ∀ pd ∈ bp, NodupKeys pd.2) (tk : TestKey) (pr : StatusPair) :
    platsFor (group_by_test bp) tk pr =
      bp.filterMap (fun pd => if aget pd.2 tk = some pr then some pd.1 else none) := by
  unfold group_by_test
  suffices hgen : ∀ (l : List (String × DiffMap)) (bt : ByTest),
      (∀ pd ∈ l, NodupKeys pd.2) →
      platsFor (l.foldl (fun bt pd =>
        (sortItems pd.2).foldl (fun bt kv => addTestEntry kv.1 kv.2 pd.1 bt) bt) bt) tk pr =
      platsFor bt tk pr ++
        l.filterMap (fun pd => if aget pd.2 tk = some pr then some pd.1 else none) by
    rw [hgen bp [] h]
    simp [platsFor, aget]
  intro l
  induction l with
  | nil => intro bt _; simp
  | cons pd rest ih =>
    intro bt hl
    rw [List.foldl_cons]
    rw [ih _ (fun q hq => hl q (List.mem_cons_of_mem _ hq))]
    rw [platsFor_inner_fold pd.1 tk pr (sortItems pd.2) bt]
    have hcount : pcount (tk, pr) (sortItems pd.2) = pcount (tk, pr) pd.2 :=
      pcount_perm (tk, pr) _ _ (sortItems_perm pd.2)
    rw [hcount, count_eq_of_nodupKeys pd.2 (hl pd (List.mem_cons_self _ _)) tk pr]
    rw [List.filterMap_cons]
    by_cases hc : aget pd.2 tk = some pr
    · simp [hc, List.append_assoc, List.replicate_succ]
    · simp [hc]

/-- Counterexample to C4 as stated: with the platform map iterated in
the order `p2, p1` (both platforms showing the identical pair for the
identical key), `group_by_test` records the list `["p2", "p1"]`, which
is not sorted — the code never sorts the platform lists. -/
theorem c4_platform_lists_not_sorted :
    platsFor (group_by_test
        [("p2", [(("a", none), (some "PASS", some "FAIL"))]),
         ("p1", [(("a", none), (some "PASS", some "FAIL"))])])
      ("a", none) (some "PASS", some "FAIL") = ["p2", "p1"] ∧
    ¬ List.Sorted (fun a b : String => pyLeStr a b = true) ["p2", "p1"] := by
  constructor
  · decide
  · intro hs
    have := List.rel_of_sorted_cons hs "p1" (by simp)
    revert this
    decide

/-- Claim C4 (amended): the Report Aggregator groups, for one suite,
each platform under the (test key, status pair) entries its difference
map exhibits — a platform appears in the list for `(k, pair)` exactly
when its difference map sends `k` to `pair`, so platforms with the
identical pair for the identical key share one list and a platform with
a different pair lands in a separate list — but each platform list
holds the platforms in input iteration order, not sorted. -/
theorem c4_aggregator_grouping (bp : List (String × DiffMap))
    (h : ∀ pd ∈ bp, NodupKeys pd.2) :
    (∀ (tk : TestKey) (pr : StatusPair) (plat : String),
      plat ∈ platsFor (group_by_test bp) tk pr ↔
        ∃ d, (plat, d) ∈ bp ∧ aget d tk = some pr) ∧
    (∀ (tk : TestKey) (pr : StatusPair),
      platsFor (group_by_test bp) tk pr =
        bp.filterMap (fun pd => if aget pd.2 tk = some pr then some pd.1 else none)) := by
  have hchar := platsFor_group_by_test bp h
  refine ⟨?_, hchar⟩
  intro tk pr plat
  rw [hchar tk pr, List.mem_filterMap]
  constructor
  · rintro ⟨pd, hpd, hif⟩
    by_cases hc : aget pd.2 tk = some pr
    · rw [if_pos hc] at hif
      cases hif
      exact ⟨pd.2, by simpa using hpd, hc⟩
    · rw [if_neg hc] at hif
      cases hif
  · rintro ⟨d, hd, hc⟩
    exact ⟨(plat, d), hd, by simp [hc]⟩

/-- Witness for C4's amended theorem on a concrete two-platform map:
`p1` and `p2` share the pair `(Pass, Fail)` for key `a` and so share
one list, while `p3`'s different pair lands in its own list. -/
theorem c4_aggregator_grouping_witness :
    platsFor (group_by_test
        [("p1", [(("a", none), (some "PASS", some "FAIL"))]),
         ("p2", [(("a", none), (some "PASS", some "FAIL"))]),
         ("p3", [(("a", none), (some "PASS", some "TIMEOUT"))])])
      ("a", none) (some "PASS", some "FAIL") = ["p1", "p2"] ∧
    platsFor (group_by_test
        [("p1", [(("a", none), (some "PASS", some "FAIL"))]),
         ("p2", [(("a", none), (some "PASS", some "FAIL"))]),
         ("p3", [(("a", none), (some "PASS", some "TIMEOUT"))])])
      ("a", none) (some "PASS", some "TIMEOUT") = ["p3"] := by
  have h := c4_aggregator_grouping
    [("p1", [(("a", none), (some "PASS", some "FAIL"))]),
     ("p2", [(("a", none), (some "PASS", some "FAIL"))]),
     ("p3", [(("a", none), (some "PASS", some "TIMEOUT"))])]
    (by decide)
  exact ⟨(h.2 ("a", none) (some "PASS", some "FAIL")).trans (by decide),
    (h.2 ("a", none) (some "PASS", some "TIMEOUT")).trans (by decide)⟩

/-! ## The JSON wire format (`JSONOutput` / `output_file`) -/

/-- A JSON value, as far as this tool's wire format needs. -/
inductive J where
  | null : J
  | str : String → J
  | arr : List J → J
  | obj : List (String × J) → J

/-- The final `Report` data: branch, commit, and
suite → platform → difference map, as handed to `JSONOutput.write`. -/
structure Report where
  branch : String
  commit : String
  differences : List (String × List (String × DiffMap))

/-- A status-or-null, as `json.dump` renders it. -/
def encOptStr : Option String → J
  | none => J.null
  | some s => J.str s

/-- One `(key, [non-e10s, e10s])` item of `list(value.iteritems())`,
serialized: `[[test, subtest-or-null], [status-or-null, status-or-null]]`. -/
def encEntry (e : TestKey × StatusPair) : J :=
  J.arr [J.arr [J.str e.1.1, encOptStr e.1.2], J.arr [encOptStr e.2.1, encOptStr e.2.2]]

/-- One platform's difference list as serialized by `JSONOutput.write`. -/
def encPlatform (d : DiffMap) : J := J.arr (d.map encEntry)

/-- The whole document produced by `JSONOutput` (`self.data` built by
`write` per suite, dumped by `end`). -/
def JSONOutput_document (r : Report) : J :=
  J.obj [("branch", J.str r.branch), ("commit", J.str r.commit),
         ("differences", J.obj (r.differences.map (fun s =>
            (s.1, J.obj (s.2.map (fun p => (p.1, encPlatform p.2)))))))]

/-- `dict(pairs)`: sequential dict assignment, later duplicates win. -/
def buildDict {κ δ : Type} [DecidableEq κ] (l : List (κ × δ)) : List (κ × δ) :=
  l.foldl (fun m kv => dinsert kv.1 kv.2 m) []

/-- Decode a status-or-null position of the schema. -/
def decOptStr : J → Option (Option String)
  | J.null => some none
  | J.str s => some (some s)
  | _ => none

/-- `tuple(item[0])` on a loaded `[test, subtest-or-null]` value. -/
def decKey : J → Option TestKey
  | J.arr [J.str t, b] => (decOptStr b).map (fun sub => (t, sub))
  | _ => none

/-- Decode one loaded difference item back to `(key, pair)`. -/
def decEntry : J → Option (TestKey × StatusPair)
  | J.arr [k, J.arr [a, b]] => do
      let key ← decKey k
      let va ← decOptStr a
      let vb ← decOptStr b
      pure (key, (va, vb))
  | _ => none

def decEntries : List J → Option (List (TestKey × StatusPair))
  | [] => some []
  | e :: rest => do
      let x ← decEntry e
      let tail ← decEntries rest
      pure (x :: tail)

/-- `dict((tuple(item[0]), item[1]) for item in differences)` in
`output_file`: decode the items, then dict them up. -/
def decPlatform : J → Option DiffMap
  | J.arr es => (decEntries es).map buildDict
  | _ => none

def decPlatPairs : List (String × J) → Option (List (String × DiffMap))
  | [] => some []
  | (p, v) :: rest => do
      let d ← decPlatform v
      let tail ← decPlatPairs rest
      pure ((p, d) :: tail)

/-- A loaded per-suite JSON object of platforms (a Python dict after
`json.load`, so duplicate keys collapse, modelled by `buildDict`). -/
def decPlatformsObj : J → Option (List (String × DiffMap))
  | J.obj kvs => (decPlatPairs kvs).map buildDict
  | _ => none

def decSuitePairs : List (String × J) → Option (List (String × List (String × DiffMap)))
  | [] => some []
  | (s, v) :: rest => do
      let bp ← decPlatformsObj v
      let tail ← decSuitePairs rest
      pure ((s, bp) :: tail)

def decSuites : J → Option (List (String × List (String × DiffMap)))
  | J.obj kvs => (decSuitePairs kvs).map buildDict
  | _ => none

/-- The load path of `output_file`: `json.load` the document, pull out
`branch`, `commit` and `differences`, and re-tuple each difference key. -/
def output_file_load (j : J) : Option Report :=
  match j with
  | J.obj kvs =>
      let m := buildDict kvs
      (match aget m "branch", aget m "commit", aget m "differences" with
       | some (J.str branch), some (J.str commit), some diffsJ =>
          (decSuites diffsJ).map (fun diffs => ⟨branch, commit, diffs⟩)
       | _, _, _ => none)
  | _ => none

theorem buildDict_eq_self {κ δ : Type} [DecidableEq κ] (l : List (κ × δ))
    (h : NodupKeys l) : buildDict l = l := by
  unfold buildDict
  have hstep : (fun (m : List (κ × δ)) (kv : κ × δ) => dinsert kv.1 kv.2 m) =
      condInsert (fun kv => some kv.2) := rfl
  rw [hstep, foldl_condInsert_eq_append _ _ h [] (fun kv _ => by simp [aget])]
  rw [filterMap_eq_map_of_all_some _ _ Prod.snd (fun kv _ => rfl)]
  simp

theorem decOptStr_encOptStr (o : Option String) : decOptStr (encOptStr o) = some o := by
  cases o <;> rfl

theorem decEntry_encEntry (e : TestKey × StatusPair) : decEntry (encEntry e) = some e := by
  obtain ⟨⟨t, sub⟩, a, b⟩ := e
  cases sub <;> cases a <;> cases b <;> rfl

theorem decEntries_map_encEntry (d : DiffMap) : decEntries (d.map encEntry) = some d := by
  induction d with
  | nil => rfl
  | cons e rest ih =>
    rw [List.map_cons]
    unfold decEntries
    rw [decEntry_encEntry, ih]
    rfl

theorem decPlatform_encPlatform (d : DiffMap) (h : NodupKeys d) :
    decPlatform (encPlatform d) = some d := by
  have h0 : decPlatform (encPlatform d) =
      (decEntries (d.map encEntry)).map buildDict := rfl
  rw [h0, decEntries_map_encEntry]
  simp [buildDict_eq_self d h]

theorem decPlatPairs_map (bp : List (String × DiffMap))
    (h : ∀ p ∈ bp, NodupKeys p.2) :
    decPlatPairs (bp.map (fun p => (p.1, encPlatform p.2))) = some bp := by
  induction bp with
  | nil => rfl
  | cons p rest ih =>
    rw [List.map_cons]
    unfold decPlatPairs
    rw [decPlatform_encPlatform p.2 (h p (List.mem_cons_self _ _))]
    rw [ih (fun q hq => h q (List.mem_cons_of_mem _ hq))]
    rfl

theorem decSuitePairs_map (suites : List (String × List (String × DiffMap)))
    (hplats : ∀ s ∈ suites, NodupKeys s.2)
    (hentries : ∀ s ∈ suites, ∀ p ∈ s.2, NodupKeys p.2) :
    decSuitePairs (suites.map (fun s =>
      (s.1, J.obj (s.2.map (fun p => (p.1, encPlatform p.2)))))) = some suites := by
  induction suites with
  | nil => rfl
  | cons s rest ih =>
    rw [List.map_cons]
    unfold decSuitePairs
    have hbp : decPlatformsObj (J.obj (s.2.map (fun p => (p.1, encPlatform p.2)))) =
        some s.2 := by
      have h0 : decPlatformsObj (J.obj (s.2.map (fun p => (p.1, encPlatform p.2)))) =
          (decPlatPairs (s.2.map (fun p => (p.1, encPlatform p.2)))).map buildDict := rfl
      rw [h0, decPlatPairs_map s.2 (hentries s (List.mem_cons_self _ _))]
      simp [buildDict_eq_self s.2 (hplats s (List.mem_cons_self _ _))]
    rw [hbp, ih (fun q hq => hplats q (List.mem_cons_of_mem _ hq))
      (fun q hq => hentries q (List.mem_cons_of_mem _ hq))]
    rfl

/-- Claim C3: serializing a Report through the JSON output path and
loading the document through `output_file`'s load path reconstructs,
for every suite and platform, the original difference-map content. -/
theorem c3_json_roundtrip (r : Report)
    (hsuites : NodupKeys r.differences)
    (hplats : ∀ s ∈ r.differences, NodupKeys s.2)
    (hentries : ∀ s ∈ r.differences, ∀ p ∈ s.2, NodupKeys p.2) :
    output_file_load (JSONOutput_document r) = some r := by
  obtain ⟨branch, commit, diffs⟩ := r
  have hs : decSuites (J.obj (diffs.map (fun s =>
      (s.1, J.obj (s.2.map (fun p => (p.1, encPlatform p.2))))))) = some diffs := by
    have h0 : decSuites (J.obj (diffs.map (fun s =>
        (s.1, J.obj (s.2.map (fun p => (p.1, encPlatform p.2))))))) =
        (decSuitePairs (diffs.map (fun s =>
          (s.1, J.obj (s.2.map (fun p => (p.1, encPlatform p.2))))))).map buildDict := rfl
    rw [h0, decSuitePairs_map diffs hplats hentries]
    simp [buildDict_eq_self diffs hsuites]
  have htop : buildDict [("branch", J.str branch), ("commit", J.str commit),
      ("differences", J.obj (diffs.map (fun s =>
        (s.1, J.obj (s.2.map (fun p => (p.1, encPlatform p.2)))))))] =
      [("branch", J.str branch), ("commit", J.str commit),
       ("differences", J.obj (diffs.map (fun s =>
        (s.1, J.obj (s.2.map (fun p => (p.1, encPlatform p.2)))))))] := by
    apply buildDict_eq_self
    show List.Nodup ["branch", "commit", "differences"]
    decide
  show (match aget (buildDict [("branch", J.str branch), ("commit", J.str commit),
      ("differences", J.obj (diffs.map (fun s =>
        (s.1, J.obj (s.2.map (fun p => (p.1, encPlatform p.2)))))))]) "branch",
      aget (buildDict [("branch", J.str branch), ("commit", J.str commit),
      ("differences", J.obj (diffs.map (fun s =>
        (s.1, J.obj (s.2.map (fun p => (p.1, encPlatform p.2)))))))]) "commit",
      aget (buildDict [("branch", J.str branch), ("commit", J.str commit),
      ("differences", J.obj (diffs.map (fun s =>
        (s.1, J.obj (s.2.map (fun p => (p.1, encPlatform p.2)))))))]) "differences" with
     | some (J.str b), some (J.str c), some diffsJ =>
        (decSuites diffsJ).map (fun ds => (⟨b, c, ds⟩ : Report))
     | _, _, _ => none) = some (⟨branch, commit, diffs⟩ : Report)
  rw [htop]
  have hb : aget [("branch", J.str branch), ("commit", J.str commit),
      ("differences", J.obj (diffs.map (fun s =>
        (s.1, J.obj (s.2.map (fun p => (p.1, encPlatform p.2)))))))] "branch" =
      some (J.str branch) := by simp [aget]
  have hc : aget [("branch", J.str branch), ("commit", J.str commit),
      ("differences", J.obj (diffs.map (fun s =>
        (s.1, J.obj (s.2.map (fun p => (p.1, encPlatform p.2)))))))] "commit" =
      some (J.str commit) := by simp [aget]
  have hd : aget [("branch", J.str branch), ("commit", J.str commit),
      ("differences", J.obj (diffs.map (fun s =>
        (s.1, J.obj (s.2.map (fun p => (p.1, encPlatform p.2)))))))] "differences" =
      some (J.obj (diffs.map (fun s =>
        (s.1, J.obj (s.2.map (fun p => (p.1, encPlatform p.2))))))) := by simp [aget]
  rw [hb, hc, hd]
  show (decSuites (J.obj (diffs.map (fun s =>
      (s.1, J.obj (s.2.map (fun p => (p.1, encPlatform p.2)))))))).map
      (fun ds => (⟨branch, commit, ds⟩ : Report)) = some (⟨branch, commit, diffs⟩ : Report)
  rw [hs]
  rfl

/-- Witness for C3 at a concrete report: one suite, one platform, two
entries (one with a null subtest and a null non-e10s side). -/
theorem c3_json_roundtrip_witness :
    output_file_load (JSONOutput_document
      ⟨"mozilla-central", "abc123",
       [("wpt", [("linux64",
          [(("a.html", none), (some "PASS", some "FAIL")),
           (("b.html", some "sub1"), (none, some "PASS"))])])]⟩) =
    some ⟨"mozilla-central", "abc123",
       [("wpt", [("linux64",
          [(("a.html", none), (some "PASS", some "FAIL")),
           (("b.html", some "sub1"), (none, some "PASS"))])])]⟩ :=
  c3_json_roundtrip _ (by decide) (by decide) (by decide)

/-! ## The Log Ingestor's fetch path (`get_blobber_urls`, `load_results`)

HTTP calls are abstracted as oracles: `respOf job` is the parsed body of
the Job Info artifact request for `job` (an `Except.error` models a
request or JSON-decoding exception), and `fetchLog url` is the event
stream the structured-log reader produces for the file at `url`.
Uncaught Python exceptions are `Except.error ()`. -/

/-- Python truthiness of a parsed JSON value (`if job_data:`). -/
def jTruthy : J → Bool
  | J.null => false
  | J.str s => s ≠ ""
  | J.arr l => !l.isEmpty
  | J.obj l => !l.isEmpty

/-- `len(job_data)`; raises `TypeError` on null. -/
def jLen : J → Except Unit Nat
  | J.str s => .ok s.length
  | J.arr l => .ok l.length
  | J.obj l => .ok l.length
  | J.null => .error ()

/-- `job_data[0]`, evaluated before the `try` block: indexing a
one-element list succeeds, indexing a string yields its first character,
indexing a dict with `0` raises `KeyError` (JSON object keys are
strings), indexing null raises `TypeError`. -/
def jIndex0 : J → Except Unit J
  | J.arr (x :: _) => .ok x
  | J.arr [] => .error ()
  | J.str s =>
      match s.data with
      | c :: _ => .ok (J.str (String.mk [c]))
      | [] => .error ()
  | J.obj _ => .error ()
  | J.null => .error ()

/-- Python `s.endswith(suffix)`, structurally. -/
def pyEndsWith (s suffix : String) : Bool :=
  decide (suffix.data.length ≤ s.data.length) &&
    decide (s.data.drop (s.data.length - suffix.data.length) = suffix.data)

/-- The list comprehension
`[item["url"] for item in details if item["value"].endswith("_raw.log")]`:
any lookup or attribute failure aborts the comprehension (caught by the
bare `except` and turned into `None`). -/
def extractUrls : List J → Option (List J)
  | [] => some []
  | item :: rest =>
      match item with
      | J.obj kvs =>
          (match aget kvs "value" with
           | some (J.str v) =>
               if pyEndsWith v "_raw.log" then
                 match aget kvs "url" with
                 | some u => (extractUrls rest).map (fun us => u :: us)
                 | none => none
               else extractUrls rest
           | _ => none)
      | _ => none

/-- The `try` block of `get_blobber_urls`:
`details = job_data["blob"]["job_details"]` followed by the URL
comprehension; every failure inside is absorbed into `None`. -/
def tryExtractUrls (item : J) : Option (List J) :=
  match item with
  | J.obj kvs =>
      (match aget kvs "blob" with
       | some (J.obj blob) =>
           (match aget blob "job_details" with
            | some (J.arr details) => extractUrls details
            | _ => none)
       | _ => none)
  | _ => none

/-- `get_blobber_urls(branch, job)` from `compare.py`, as a function of
the parsed Job Info response: a falsy response returns `None`
implicitly; a truthy one must be a singleton (`assert len(job_data) == 1`
raises otherwise, *outside* the `try`), its only element is indexed
(also outside the `try`), and the blob extraction is attempted with all
failures absorbed into `None`. -/
def get_blobber_urls (resp : Except Unit J) : Except Unit (Option (List J)) := do
  let job_data ← resp
  if jTruthy job_data then do
    let len ← jLen job_data
    if len = 1 then do
      let item ← jIndex0 job_data
      pure (tryExtractUrls item)
    else .error ()
  else pure none

/-- One iteration of the `for result in results` loop of `load_results`:
fetch the job's blobber URLs, and when truthy fold every fetched log's
event stream into the handler's data. -/
def loadStep (respOf : Job → Except Unit J) (fetchLog : J → List LogEvent)
    (data : HandlerData) (result : Job) : Except Unit HandlerData := do
  let urls ← get_blobber_urls (respOf result)
  match urls with
  | some us =>
      if us.isEmpty then pure data
      else pure (us.foldl (fun d u => (fetchLog u).foldl (handleEvent result) d) data)
  | none => pure data

/-- `load_results(branch, results)` from `compare.py`: the handler's data
after all jobs, stripped to `{key: value[0]}` (statuses only). -/
def load_results (respOf : Job → Except Unit J) (fetchLog : J → List LogEvent)
    (results : List Job) : Except Unit StatusMap := do
  let data ← results.foldlM (loadStep respOf fetchLog) ([] : HandlerData)
  pure (data.map (fun kv => (kv.1, kv.2.1)))

theorem except_bind_error {α β : Type} (x : Except Unit α) (f : α → Except Unit β)
    (hf : ∀ a, f a = .error ()) : (x >>= f) = .error () := by
  cases x with
  | error e => cases e; rfl
  | ok a => rw [show (Except.ok a >>= f) = f a from rfl, hf a]

theorem except_bind_error_left {α β : Type} (x : Except Unit α) (f : α → Except Unit β)
    (hx : x = .error ()) : (x >>= f) = .error () := by
  rw [hx]
  rfl

/-- Counterexample to C7 as stated: a Job Info response of unexpected
shape — a truthy list that is not a singleton — hits the
`assert len(job_data) == 1` *outside* the `try` block, so `load_results`
raises to its caller instead of absorbing the failure. -/
theorem c7_unexpected_shape_raises :
    get_blobber_urls (.ok (J.arr [J.obj [], J.obj []])) = .error () ∧
    load_results (fun _ => .ok (J.arr [J.obj [], J.obj []])) (fun _ => [])
      [Job.mk 1 "Mochitest" "linux64" none "job1"] = .error () :=
  ⟨rfl, rfl⟩

/-- Claim C7 (amended): a job whose Job Info response is falsy, or whose
blob extraction fails inside the `try`, or which yields an empty URL
list, contributes no status entries, raises nothing, and leaves the
rest of the batch processed identically; but a retrieval error or a
truthy non-singleton response propagates an exception to the caller. -/
theorem c7_soft_failures_absorbed :
    (∀ (respOf : Job → Except Unit J) (fetchLog : J → List LogEvent)
       (jobs₁ jobs₂ : List Job) (job : Job),
      (get_blobber_urls (respOf job) = .ok none ∨
       get_blobber_urls (respOf job) = .ok (some [])) →
      load_results respOf fetchLog (jobs₁ ++ job :: jobs₂) =
        load_results respOf fetchLog (jobs₁ ++ jobs₂)) ∧
    get_blobber_urls (.ok (J.arr [J.obj [("blob", J.null)]])) = .ok none ∧
    get_blobber_urls (.ok (J.arr [J.obj [("blob",
      J.obj [("job_details", J.str "oops")])]])) = .ok none ∧
    get_blobber_urls (.ok (J.arr [])) = .ok none ∧
    (∀ (respOf : Job → Except Unit J) (fetchLog : J → List LogEvent)
       (jobs₁ jobs₂ : List Job) (job : Job),
      get_blobber_urls (respOf job) = .error () →
      load_results respOf fetchLog (jobs₁ ++ job :: jobs₂) = .error ()) := by
  have hstep_id : ∀ (respOf : Job → Except Unit J) (fetchLog : J → List LogEvent)
      (job : Job),
      (get_blobber_urls (respOf job) = .ok none ∨
       get_blobber_urls (respOf job) = .ok (some [])) →
      ∀ data, loadStep respOf fetchLog data job = pure data := by
    intro respOf fetchLog job h data
    unfold loadStep
    rcases h with h | h <;> rw [h] <;> rfl
  refine ⟨?_, rfl, rfl, rfl, ?_⟩
  · intro respOf fetchLog jobs₁ jobs₂ job h
    unfold load_results
    have hfolds : (jobs₁ ++ job :: jobs₂).foldlM (loadStep respOf fetchLog)
        ([] : HandlerData) =
        (jobs₁ ++ jobs₂).foldlM (loadStep respOf fetchLog) ([] : HandlerData) := by
      rw [List.foldlM_append, List.foldlM_append]
      apply bind_congr
      intro acc
      rw [List.foldlM_cons, hstep_id respOf fetchLog job h acc, pure_bind]
    rw [hfolds]
  · intro respOf fetchLog jobs₁ jobs₂ job h
    have hstep : ∀ data, loadStep respOf fetchLog data job = .error () := by
      intro data
      unfold loadStep
      rw [h]
      rfl
    unfold load_results
    rw [List.foldlM_append]
    simp only [List.foldlM_cons]
    apply except_bind_error_left
    apply except_bind_error
    intro acc
    apply except_bind_error_left
    exact hstep acc

/-- Witness for C7's amended theorem: a job with a null response body is
skipped and the remaining job's log still lands in the map. -/
theorem c7_soft_failures_absorbed_witness :
    load_results
        (fun j => if j.id = 1 then Except.ok J.null
          else Except.ok (J.arr [J.obj [("blob", J.obj [("job_details",
            J.arr [J.obj [("value", J.str "wpt_raw.log"), ("url", J.str "u1")]])])]]))
        (fun _ => [LogEvent.test_end "a" "PASS"])
        [Job.mk 1 "m" "linux64" none "bad", Job.mk 2 "m" "linux64" none "good"] =
      load_results
        (fun j => if j.id = 1 then Except.ok J.null
          else Except.ok (J.arr [J.obj [("blob", J.obj [("job_details",
            J.arr [J.obj [("value", J.str "wpt_raw.log"), ("url", J.str "u1")]])])]]))
        (fun _ => [LogEvent.test_end "a" "PASS"])
        [Job.mk 2 "m" "linux64" none "good"] ∧
    load_results
        (fun j => if j.id = 1 then Except.ok J.null
          else Except.ok (J.arr [J.obj [("blob", J.obj [("job_details",
            J.arr [J.obj [("value", J.str "wpt_raw.log"), ("url", J.str "u1")]])])]]))
        (fun _ => [LogEvent.test_end "a" "PASS"])
        [Job.mk 2 "m" "linux64" none "good"] =
      Except.ok [(("a", none), "PASS")] :=
  ⟨c7_soft_failures_absorbed.1 _ _ [] [Job.mk 2 "m" "linux64" none "good"]
      (Job.mk 1 "m" "linux64" none "bad") (Or.inl rfl),
   rfl⟩

/-! ## The text and HTML renderers (`TextOutput.write`, `HTMLOutput.write`) -/

/-- Python's `str.title()` on ASCII text, character-wise: a letter not
preceded by a letter is upper-cased, other letters are lower-cased. -/
def pytitleChars : List Char → Bool → List Char
  | [], _ => []
  | c :: rest, prevAlpha =>
      (if c.isAlpha then (if prevAlpha then c.toLower else c.toUpper) else c) ::
        pytitleChars rest c.isAlpha

/-- `result.title()`. -/
def pytitle (s : String) : String := String.mk (pytitleChars s.data false)

/-- `TextOutput.format_result`: the literal `"<missing>"` placeholder
for a null side, otherwise the title-cased status. -/
def format_result : Option String → String
  | none => "<missing>"
  | some r => pytitle r

/-- `HTMLOutput.format_result`: `"&lt;missing>"` for a null side. -/
def htmlFormat_result : Option String → String
  | none => "&lt;missing>"
  | some r => pytitle r

/-- One line of `TextOutput`'s row template
`"%(test)s | %(subtest)s | %(result_non_e10s)s | %(result_e10s)s | %(platforms)s\n"`
(a null subtest renders as the empty string). -/
def textRow (tk : TestKey) (pr : StatusPair) (plats : List String) : String :=
  tk.1 ++ " | " ++ tk.2.getD "" ++ " | " ++ format_result pr.1 ++ " | " ++
    format_result pr.2 ++ " | " ++ String.intercalate ", " plats ++ "\n"

/-- `"=" * len(job_type_name)`. -/
def eqLine (n : Nat) : String := String.mk (List.replicate n '=')

/-- The `"%s\n%s\n"` header of `TextOutput.write`. -/
def textHeader (name : String) : String := name ++ "\n" ++ eqLine name.length ++ "\n"

/-- The row block of `TextOutput.write`: test keys in sorted order, one
row per (pair, platforms) group, a blank line after each key. -/
def textRows (bt : ByTest) : String :=
  (sortItems bt).foldl (fun acc tr =>
    acc ++ (tr.2.foldl (fun a pv => a ++ textRow tr.1 pv.1 pv.2) "") ++ "\n") ""

/-- `TextOutput.write(job_type_name, by_platform)` as the string it
writes to its destination. -/
def textWrite (job_type_name : String) (by_platform : List (String × DiffMap)) : String :=
  textHeader job_type_name ++
    (if by_platform.isEmpty then "No logs found\n"
     else if by_platform.all (fun p => p.2.isEmpty) then "No differences found\n"
     else textRows (group_by_test by_platform))

def HTMLOutput_table_start : String :=
  "<table>\n<tr>\n  <th>Test</th>\n  <th>Subtest</th>\n  <th>non-e10s Result</th>\n  <th>e10s Result</th>\n  <th>Platforms</th>\n</tr>\n"

def HTMLOutput_table_end : String := "</table>\n"

/-- `HTMLOutput`'s first/latter row templates; the first row of a key
carries the rowspanned test/subtest cells. -/
def htmlRow (first : Bool) (numResults : Nat) (tk : TestKey) (pr : StatusPair)
    (plats : List String) : String :=
  if first then
    "<tr>\n  <td rowspan=\"" ++ Nat.repr numResults ++ "\">" ++ tk.1 ++
      "\n  <td rowspan=\"" ++ Nat.repr numResults ++ "\">" ++ tk.2.getD "" ++
      "\n  <td>" ++ htmlFormat_result pr.1 ++ "\n  <td>" ++ htmlFormat_result pr.2 ++
      "\n  <td>" ++ String.intercalate ", " plats ++ "\n</tr>\n"
  else
    "<tr>\n  <td>" ++ htmlFormat_result pr.1 ++ "\n  <td>" ++ htmlFormat_result pr.2 ++
      "\n  <td>" ++ String.intercalate ", " plats ++ "\n</tr>\n"

def htmlRowsAux (tk : TestKey) (numResults : Nat) :
    List (StatusPair × List String) → Bool → String
  | [], _ => ""
  | pv :: rest, first =>
      htmlRow first numResults tk pv.1 pv.2 ++ htmlRowsAux tk numResults rest false

/-- The table block of `HTMLOutput.write`. -/
def htmlTable (bt : ByTest) : String :=
  HTMLOutput_table_start ++
    (sortItems bt).foldl (fun acc tr => acc ++ htmlRowsAux tr.1 tr.2.length tr.2 true) "" ++
    HTMLOutput_table_end

/-- `HTMLOutput.write(job_type_name, by_platform)` as the string it
writes. -/
def htmlWrite (job_type_name : String) (by_platform : List (String × DiffMap)) : String :=
  "<h2>" ++ job_type_name ++ "</h2>\n" ++
    (if by_platform.isEmpty then "<p>No logs found</p>\n"
     else if by_platform.all (fun p => p.2.isEmpty) then "<p>No differences found</p>\n"
     else htmlTable (group_by_test by_platform))

theorem isEmpty_false_of_ne_nil {α : Type} (l : List α) (h : l ≠ []) :
    l.isEmpty = false := by
  cases l with
  | nil => exact absurd rfl h
  | cons x xs => rfl

theorem textWrite_no_differences (name : String) (bp : List (String × DiffMap))
    (hne : bp ≠ []) (hall : ∀ p ∈ bp, p.2 = ([] : DiffMap)) :
    textWrite name bp = textHeader name ++ "No differences found\n" := by
  have h1 : bp.isEmpty = false := isEmpty_false_of_ne_nil bp hne
  have h2 : bp.all (fun p => p.2.isEmpty) = true := by
    rw [List.all_eq_true]
    intro p hp
    rw [hall p hp]
    rfl
  unfold textWrite
  rw [h1, h2]
  rfl

theorem htmlWrite_no_differences (name : String) (bp : List (String × DiffMap))
    (hne : bp ≠ []) (hall : ∀ p ∈ bp, p.2 = ([] : DiffMap)) :
    htmlWrite name bp = "<h2>" ++ name ++ "</h2>\n" ++ "<p>No differences found</p>\n" := by
  have h1 : bp.isEmpty = false := isEmpty_false_of_ne_nil bp hne
  have h2 : bp.all (fun p => p.2.isEmpty) = true := by
    rw [List.all_eq_true]
    intro p hp
    rw [hall p hp]
    rfl
  unfold htmlWrite
  rw [h1, h2]
  rfl

/-- Claim C8: per suite, the text/HTML renderers emit the
no-logs message when the platform mapping is empty, the no-differences
message when it is non-empty but every difference map is empty, and
otherwise one row group per key via the aggregator's grouping with a
literal placeholder for a null side; in the in-both-differing
single-entry scenario the text row is
`"a.html |  | Pass | Fail | linux64"`. -/
theorem c8_renderers :
    (∀ name, textWrite name [] = textHeader name ++ "No logs found\n" ∧
      htmlWrite name [] = "<h2>" ++ name ++ "</h2>\n" ++ "<p>No logs found</p>\n") ∧
    (∀ name bp, bp ≠ [] → (∀ p ∈ bp, p.2 = ([] : DiffMap)) →
      textWrite name bp = textHeader name ++ "No differences found\n" ∧
      htmlWrite name bp = "<h2>" ++ name ++ "</h2>\n" ++ "<p>No differences found</p>\n") ∧
    (∀ name bp, bp.isEmpty = false → bp.all (fun p => p.2.isEmpty) = false →
      textWrite name bp = textHeader name ++ textRows (group_by_test bp) ∧
      htmlWrite name bp = "<h2>" ++ name ++ "</h2>\n" ++ htmlTable (group_by_test bp)) ∧
    (format_result none = "<missing>" ∧ htmlFormat_result none = "&lt;missing>") ∧
    textWrite "wpt" [("linux64", [(("a.html", none), (some "PASS", some "FAIL"))])] =
      "wpt\n===\n" ++ "a.html |  | Pass | Fail | linux64\n" ++ "\n" := by
  refine ⟨fun name => ⟨rfl, rfl⟩, ?_, ?_, ⟨rfl, rfl⟩, by decide⟩
  · intro name bp hne hall
    exact ⟨textWrite_no_differences name bp hne hall,
      htmlWrite_no_differences name bp hne hall⟩
  · intro name bp h1 h2
    constructor
    · unfold textWrite
      rw [h1, h2]
      rfl
    · unfold htmlWrite
      rw [h1, h2]
      rfl

/-- Witness for C8's hypothesised clauses: the empty-data branches on a
concrete suite. -/
theorem c8_renderers_witness :
    textWrite "wpt" [("linux64", [])] = textHeader "wpt" ++ "No differences found\n" ∧
    textWrite "wpt" [("linux64", [(("a.html", none), (some "PASS", some "FAIL"))])] =
      textHeader "wpt" ++ textRows (group_by_test
        [("linux64", [(("a.html", none), (some "PASS", some "FAIL"))])]) :=
  ⟨(c8_renderers.2.1 "wpt" [("linux64", [])] (by decide) (by decide)).1,
   (c8_renderers.2.2.1 "wpt" [("linux64", [(("a.html", none), (some "PASS", some "FAIL"))])]
      (by decide) (by decide)).1⟩

/-! ## The live comparison loop of `compare` (per suite) -/

/-- The decision `compare` takes for one platform's pair of job lists:
an empty mode records an empty difference dict without fetching
anything; otherwise logs are loaded for both modes (`loadRes` abstracts
`load_results`) and the platform is recorded only when some map is
non-empty. -/
def platformEntry (loadRes : List Job → StatusMap)
    (pr : String × (List Job × List Job)) : Option DiffMap :=
  if pr.2.1.length = 0 ∨ pr.2.2.length = 0 then some []
  else if loadRes pr.2.1 ≠ [] ∨ loadRes pr.2.2 ≠ [] then
    some (compare_results (loadRes pr.2.1) (loadRes pr.2.2))
  else none

/-- The `by_platform` dict built by `compare` for one suite: the
`for platform, results in results_by_platform.iteritems()` loop. -/
def buildByPlatform (loadRes : List Job → StatusMap)
    (rbp : List (String × (List Job × List Job))) : List (String × DiffMap) :=
  rbp.foldl (condInsert (platformEntry loadRes)) []

theorem aget_map_val {κ δ ε : Type} [DecidableEq κ] (f : δ → ε) (l : List (κ × δ))
    (k : κ) : aget (l.map (fun q => (q.1, f q.2))) k = (aget l k).map f := by
  induction l with
  | nil => simp [aget]
  | cons q rest ih =>
    by_cases h : q.1 = k
    · simp [aget, h]
    · simp [aget, h, ih]

/-- Claim C10: in the live pipeline, a platform with zero jobs in some
isolation mode is recorded with an empty difference map independent of
any log data (nothing is fetched for it), appears in the serialized
suite object as an empty entry list, and — when every platform of the
suite is in that situation — the text/HTML renderers take the
"no differences found" branch, not "no logs found"; a platform with
jobs in both modes whose loaded status maps are both empty is omitted
from the suite's platform mapping entirely. -/
theorem c10_empty_mode_platforms (loadRes : List Job → StatusMap)
    (rbp : List (String × (List Job × List Job))) (h : NodupKeys rbp) :
    (∀ p r0 r1, (p, (r0, r1)) ∈ rbp →
      (r0 = [] ∨ r1 = [] →
        aget (buildByPlatform loadRes rbp) p = some [] ∧
        aget ((buildByPlatform loadRes rbp).map (fun q => (q.1, encPlatform q.2))) p =
          some (J.arr [])) ∧
      (r0 ≠ [] → r1 ≠ [] → loadRes r0 = [] → loadRes r1 = [] →
        aget (buildByPlatform loadRes rbp) p = none) ∧
      (r0 ≠ [] → r1 ≠ [] → (loadRes r0 ≠ [] ∨ loadRes r1 ≠ []) →
        aget (buildByPlatform loadRes rbp) p =
          some (compare_results (loadRes r0) (loadRes r1)))) ∧
    (rbp ≠ [] → (∀ q ∈ rbp, q.2.1 = [] ∨ q.2.2 = []) → ∀ name,
      textWrite name (buildByPlatform loadRes rbp) =
        textHeader name ++ "No differences found\n" ∧
      htmlWrite name (buildByPlatform loadRes rbp) =
        "<h2>" ++ name ++ "</h2>\n" ++ "<p>No differences found</p>\n") := by
  constructor
  · intro p r0 r1 hmem
    have hp : aget rbp p = some (r0, r1) := aget_eq_some_of_mem rbp p (r0, r1) h hmem
    have hchar : aget (buildByPlatform loadRes rbp) p =
        (platformEntry loadRes (p, (r0, r1))).orElse (fun _ => none) := by
      have h0 := aget_foldl_condInsert (platformEntry loadRes) rbp h [] p
      rw [hp] at h0
      exact h0
    refine ⟨?_, ?_, ?_⟩
    · intro hzero
      have hentry : platformEntry loadRes (p, (r0, r1)) = some [] := by
        unfold platformEntry
        have hl : r0.length = 0 ∨ r1.length = 0 := by
          rcases hzero with hz | hz
          · exact Or.inl (by rw [hz]; rfl)
          · exact Or.inr (by rw [hz]; rfl)
        rw [if_pos hl]
      rw [hentry] at hchar
      refine ⟨hchar, ?_⟩
      rw [aget_map_val, hchar]
      rfl
    · intro h0 h1 hl0 hl1
      have hentry : platformEntry loadRes (p, (r0, r1)) = none := by
        unfold platformEntry
        have hlen : ¬ (r0.length = 0 ∨ r1.length = 0) := by
          rintro (hz | hz)
          · exact h0 (List.length_eq_zero.mp hz)
          · exact h1 (List.length_eq_zero.mp hz)
        rw [if_neg hlen]
        have hdata : ¬ (loadRes r0 ≠ [] ∨ loadRes r1 ≠ []) := by
          rintro (hc | hc)
          · exact hc hl0
          · exact hc hl1
        rw [if_neg hdata]
      rw [hentry] at hchar
      exact hchar
    · intro h0 h1 hdata
      have hentry : platformEntry loadRes (p, (r0, r1)) =
          some (compare_results (loadRes r0) (loadRes r1)) := by
        unfold platformEntry
        have hlen : ¬ (r0.length = 0 ∨ r1.length = 0) := by
          rintro (hz | hz)
          · exact h0 (List.length_eq_zero.mp hz)
          · exact h1 (List.length_eq_zero.mp hz)
        rw [if_neg hlen, if_pos hdata]
      rw [hentry] at hchar
      exact hchar
  · intro hne hall name
    have hbp : buildByPlatform loadRes rbp = rbp.map (fun q => (q.1, ([] : DiffMap))) := by
      unfold buildByPlatform
      rw [foldl_condInsert_eq_append _ _ h [] (fun kv _ => by simp [aget])]
      rw [List.nil_append]
      exact filterMap_eq_map_of_all_some _ _ (fun _ => []) (fun q hq => by
        unfold platformEntry
        have : q.2.1.length = 0 ∨ q.2.2.length = 0 := by
          rcases hall q hq with hz | hz
          · exact Or.inl (by rw [hz]; rfl)
          · exact Or.inr (by rw [hz]; rfl)
        rw [if_pos this])
    have hne' : buildByPlatform loadRes rbp ≠ [] := by
      rw [hbp]
      cases rbp with
      | nil => exact absurd rfl hne
      | cons q rest => simp
    have hall' : ∀ q ∈ buildByPlatform loadRes rbp, q.2 = ([] : DiffMap) := by
      rw [hbp]
      intro q hq
      rcases List.mem_map.mp hq with ⟨q', -, rfl⟩
      rfl
    exact ⟨textWrite_no_differences name _ hne' hall',
      htmlWrite_no_differences name _ hne' hall'⟩

/-- Witness for C10: a platform whose e10s slot is empty is recorded as
an empty entry and the suite renders "No differences found". -/
theorem c10_empty_mode_platforms_witness :
    aget (buildByPlatform (fun _ => [])
        [("linux64", ([Job.mk 1 "Mochitest" "linux64" none "x"], []))]) "linux64" =
      some [] ∧
    textWrite "wpt" (buildByPlatform (fun _ => [])
        [("linux64", ([Job.mk 1 "Mochitest" "linux64" none "x"], []))]) =
      textHeader "wpt" ++ "No differences found\n" := by
  have h := c10_empty_mode_platforms (fun _ => [])
    [("linux64", ([Job.mk 1 "Mochitest" "linux64" none "x"], []))] (by decide)
  exact ⟨(h.1 "linux64" [Job.mk 1 "Mochitest" "linux64" none "x"] []
      (by decide) |>.1 (Or.inr rfl)).1,
    (h.2 (by decide) (by decide) "wpt").1⟩

end E10s
